import Mathlib

/-!
Verification development for the Bundlephobic dependency-resolution and
request-coordination pipeline.

The definitions below are shallow embeddings of the repository's source
files:
  * src/utils/regexp.ts     (semver extraction, section-header and
                             dependency-line patterns)
  * src/lib/sections.ts     (line-oriented dependency scanner)
  * src/utils/catalog.ts    (workspace catalog parser and version
                             normalization)
  * src/lib/limiter.ts      (bounded-concurrency gate)
  * src/extension.ts        (size cache and npm-metadata cache
                             coordinators, modelled as small-step state
                             machines over interleaved asynchronous calls)

Strings are modelled as lists of characters; JS regexes are translated to
executable matchers with the backtracking behaviour of the concrete
patterns spelled out.
-/

/-- JS whitespace (the ASCII part of \s, which is all the sources use). -/
def isWsC (c : Char) : Bool :=
  c == ' ' || c == '\t' || c == '\n' || c == '\r' || c == '\x0b' || c == '\x0c'

/-- \d -/
def isDigitC (c : Char) : Bool := '0' ≤ c && c ≤ '9'

/-- [A-Za-z] -/
def isLetterC (c : Char) : Bool := ('A' ≤ c && c ≤ 'Z') || ('a' ≤ c && c ≤ 'z')

/-- JS String.prototype.trim on a list of characters. -/
def trimC (s : List Char) : List Char :=
  ((s.dropWhile isWsC).reverse.dropWhile isWsC).reverse

/-- text.split(/\r?\n/), accumulator form. -/
def splitLinesAux : List Char → List Char → List (List Char)
  | [], acc => [acc.reverse]
  | '\r' :: '\n' :: rest, acc => acc.reverse :: splitLinesAux rest []
  | '\n' :: rest, acc => acc.reverse :: splitLinesAux rest []
  | c :: rest, acc => splitLinesAux rest (c :: acc)

/-- text.split(/\r?\n/). -/
def splitLines (s : List Char) : List (List Char) := splitLinesAux s []

/-- Characters of the optional prerelease tail in SEMVER_RE: [0-9A-Za-z.-].
Note the source class has no underscore. -/
def isTailC (c : Char) : Bool := isDigitC c || isLetterC c || c == '.' || c == '-'

/-- Attempt to match SEMVER_RE = \d+\.\d+\.\d+(?:-[0-9A-Za-z.-]+)? at the
head of s, returning the matched prefix.  The greedy \d+ runs are exact
maximal digit runs because each must be followed by a non-digit ('.' or
'-' or the end of the pattern), and the optional tail is the maximal run
of tail characters after a '-' (empty run ⇒ the optional group fails and
the base match stands). -/
def semverHere (s : List Char) : Option (List Char) :=
  let d1 := s.takeWhile isDigitC
  if d1.isEmpty then none else
  match s.dropWhile isDigitC with
  | '.' :: r2 =>
    let d2 := r2.takeWhile isDigitC
    if d2.isEmpty then none else
    (match r2.dropWhile isDigitC with
     | '.' :: r4 =>
       let d3 := r4.takeWhile isDigitC
       if d3.isEmpty then none else
       let core := d1 ++ '.' :: d2 ++ '.' :: d3
       (match r4.dropWhile isDigitC with
        | '-' :: r6 =>
          let tl := r6.takeWhile isTailC
          if tl.isEmpty then some core else some (core ++ '-' :: tl)
        | _ => some core)
     | _ => none)
  | _ => none

/-- raw.match(SEMVER_RE): leftmost match of the pattern. -/
def semverFirst : List Char → Option (List Char)
  | [] => none
  | c :: rest =>
    match semverHere (c :: rest) with
    | some m => some m
    | none => semverFirst rest

/-- extractPinnedVersion from src/utils/regexp.ts: the first SEMVER_RE
match if any, otherwise raw.replace(/^\s*[~^]/, '').trim(). -/
def extractPinnedVersion (raw : List Char) : List Char :=
  match semverFirst raw with
  | some m => m
  | none =>
    match raw.dropWhile isWsC with
    | c :: rest => if c == '~' || c == '^' then trimC rest else trimC raw
    | [] => trimC raw

/-- The key alternation of DEP_SECTION_HEADER_RE:
dependencies|[A-Za-z]+Dependencies.  The second alternative needs at
least one letter before the literal, hence length > 12. -/
def headerKeyPat (k : List Char) : Bool :=
  k == "dependencies".toList ||
  (k.all isLetterC && "Dependencies".toList.isSuffixOf k && decide (12 < k.length))

/-- DEP_SECTION_HEADER_RE = ^\s*"(dependencies|[A-Za-z]+Dependencies)"\s*:\s*\{?
applied to a line, returning the captured key.  The trailing \s*\{? can
always match the empty string, so the pattern reduces to
^\s*"(key)"\s*: with the key constrained as in headerKeyPat; both key
alternatives are letter-only, so the capture is exactly the maximal
letter run after the opening quote. -/
def headerKeyOf (line : List Char) : Option (List Char) :=
  match line.dropWhile isWsC with
  | '"' :: r2 =>
    let k := r2.takeWhile isLetterC
    (match r2.dropWhile isLetterC with
     | '"' :: r3 =>
       (match r3.dropWhile isWsC with
        | ':' :: _ => if headerKeyPat k then some k else none
        | _ => none)
     | _ => none)
  | _ => none

/-- The four tracked section names of sections.ts. -/
def sectionNames : List (List Char) :=
  ["dependencies".toList, "devDependencies".toList,
   "peerDependencies".toList, "optionalDependencies".toList]

/-- The header test of the scanner: DEP_SECTION_HEADER_RE match followed by
the sectionNames membership check (sections.ts lines 37-38). -/
def headerOf (line : List Char) : Option (List Char) :=
  match headerKeyOf line with
  | some k => if sectionNames.contains k then some k else none
  | none => none

/-- DEP_LINE_RE = ^\s*"([^"]+)"\s*:\s*"([^"]+)".  Both captures are the
maximal runs of non-quote characters after their opening quotes. -/
def depLineOf (line : List Char) : Option (List Char × List Char) :=
  match line.dropWhile isWsC with
  | '"' :: r2 =>
    let n := r2.takeWhile (fun c => c != '"')
    if n.isEmpty then none else
    (match r2.dropWhile (fun c => c != '"') with
     | '"' :: r3 =>
       (match r3.dropWhile isWsC with
        | ':' :: r4 =>
          (match r4.dropWhile isWsC with
           | '"' :: r5 =>
             let v := r5.takeWhile (fun c => c != '"')
             if v.isEmpty then none else
             (match r5.dropWhile (fun c => c != '"') with
              | '"' :: _ => some (n, v)
              | _ => none)
           | _ => none)
        | _ => none)
     | _ => none)
  | _ => none

/-- openCount - closeCount of a line (OPEN_BRACE_RE / CLOSE_BRACE_RE). -/
def braceDelta (line : List Char) : Int :=
  (line.count '\x7b' : Int) - (line.count '\x7d' : Int)

/-- DependencyLocation from sections.ts. -/
structure DepItem where
  name : List Char
  version : List Char
  packageQuery : List Char
  line : Nat
deriving DecidableEq

/-- The line loop of parseDependenciesFromText (sections.ts lines 31-63):
state is (inside-section flag, brace depth); a matching header line with
non-positive net brace count opens and immediately closes its section. -/
def scanGo : List (List Char) → Nat → Bool → Int → List DepItem
  | [], _, _, _ => []
  | l :: ls, i, false, depth =>
    (match headerOf l with
     | some _ =>
       let d := braceDelta l
       if d ≤ 0 then scanGo ls (i+1) false d else scanGo ls (i+1) true d
     | none => scanGo ls (i+1) false depth)
  | l :: ls, i, true, depth =>
    let d := depth + braceDelta l
    if d ≤ 0 then scanGo ls (i+1) false 0
    else
      (match depLineOf l with
       | some (n, v) =>
         { name := n, version := v, packageQuery := n ++ '@' :: v, line := i }
           :: scanGo ls (i+1) true d
       | none => scanGo ls (i+1) true d)

/-- parseDependenciesFromText from sections.ts. -/
def parseDependenciesFromText (text : List Char) : List DepItem :=
  scanGo (splitLines text) 0 false 0

/-- Association-list lookup standing for JS object property access on the
catalog map. -/
def lookupA : List (List Char × List Char) → List Char → Option (List Char)
  | [], _ => none
  | (a, b) :: rest, k => if a = k then some b else lookupA rest k

/-- NormalizeResult from src/utils/catalog.ts; absent optional fields are
modelled as none. -/
structure NormalizeResult where
  skip : Bool
  resolvedVersion : Option (List Char) := none
  fromCatalog : Option Bool := none
deriving DecidableEq

/-- normalizeVersionForMonorepo from src/utils/catalog.ts.  The JS
truthiness test `if (resolved)` rejects an empty-string catalog value. -/
def normalizeVersionForMonorepo (packageName rawVersion : List Char)
    (defaultCatalog : List (List Char × List Char)) : NormalizeResult :=
  let trimmed := trimC rawVersion
  if "workspace:".toList.isPrefixOf trimmed then { skip := true }
  else if "catalog:".toList.isPrefixOf trimmed then
    let after := trimC (trimmed.drop 8)
    if after = [] ∨ after = ['.'] then
      match lookupA defaultCatalog packageName with
      | some v =>
        if v = [] then { skip := true }
        else { skip := false, resolvedVersion := some v, fromCatalog := some true }
      | none => { skip := true }
    else { skip := true }
  else { skip := false, resolvedVersion := some trimmed }

example : normalizeVersionForMonorepo "react".toList "^18.3.1".toList [] =
    { skip := false, resolvedVersion := some "^18.3.1".toList } := by decide

example : normalizeVersionForMonorepo "a".toList "workspace:*".toList [] =
    { skip := true } := by decide

example : normalizeVersionForMonorepo "a".toList "catalog:".toList
    [("a".toList, "^1.2.3".toList)] =
    { skip := false, resolvedVersion := some "^1.2.3".toList,
      fromCatalog := some true } := by decide

example : extractPinnedVersion "^1.2.3".toList = "1.2.3".toList := by decide

example : extractPinnedVersion "workspace:*".toList = "workspace:*".toList := by decide

example : extractPinnedVersion "  ^3.4.5 ".toList = "3.4.5".toList := by decide

/-! ## Limiter (src/lib/limiter.ts)

makeLimiter closes over an active count and a FIFO queue.  The state
below records the running and queued task ids together with histories
(submission order, admission order, settled results) used to state the
claims.  Events are the synchronous mutation points of the source:
submitting a unit (push + runNext) and a running unit settling
(resolve/reject, activeCount--, runNext). -/

structure LimSt where
  limit : Nat
  active : List Nat
  queue : List Nat
  admitLog : List Nat
  submitLog : List Nat
  results : List (Nat × Nat)
deriving DecidableEq

def limInit (limit : Nat) : LimSt :=
  { limit := limit, active := [], queue := [], admitLog := [],
    submitLog := [], results := [] }

/-- runNext from limiter.ts: do nothing at or above the limit, otherwise
shift the queue head (if any) and start it. -/
def runNext (s : LimSt) : LimSt :=
  if s.limit ≤ s.active.length then s
  else
    match s.queue with
    | [] => s
    | t :: q =>
      { s with active := s.active ++ [t], queue := q,
               admitLog := s.admitLog ++ [t] }

inductive LimEv where
  | submit (id : Nat)
  | settle (id : Nat)
deriving DecidableEq

/-- One interleaving step; out gives each unit its own outcome.  A submit
pushes the unit and calls runNext; a settle of a running unit records
that unit's own result, decrements the active count (erase) and calls
runNext.  Ids are required fresh on submit so the histories are
unambiguous. -/
def limStep (out : Nat → Nat) (s : LimSt) : LimEv → Option LimSt
  | .submit id =>
    if id ∈ s.submitLog then none
    else some (runNext { s with queue := s.queue ++ [id],
                                submitLog := s.submitLog ++ [id] })
  | .settle id =>
    if id ∈ s.active then
      some (runNext { s with active := s.active.erase id,
                             results := s.results ++ [(id, out id)] })
    else none

def limRun (out : Nat → Nat) : List LimEv → LimSt → Option LimSt
  | [], s => some s
  | e :: es, s =>
    match limStep out s e with
    | some s' => limRun out es s'
    | none => none

/-- Reachable-state invariant of the limiter. -/
def LimInv (out : Nat → Nat) (s : LimSt) : Prop :=
  s.active.length ≤ s.limit ∧
  s.admitLog ++ s.queue = s.submitLog ∧
  (s.queue ≠ [] → s.active.length = s.limit) ∧
  (∀ p ∈ s.results, p.2 = out p.1)


lemma limStep_inv (out : Nat → Nat) (s s' : LimSt) (e : LimEv)
    (hInv : LimInv out s) (h : limStep out s e = some s') : LimInv out s' := by
  obtain ⟨h1, h2, h3, h4⟩ := hInv
  cases e with
  | submit id =>
    simp only [limStep] at h
    split at h
    · exact absurd h (by simp)
    · injection h with h
      subst h
      unfold runNext
      split
      · rename_i hge
        refine ⟨by simpa using h1, by simp [← h2], fun _ => ?_, by simpa using h4⟩
        exact le_antisymm (by simpa using h1) (by simpa using hge)
      · rename_i hlt
        simp only [not_le] at hlt
        have hq : s.queue = [] := by
          by_contra hq
          exact absurd (h3 hq) (Nat.ne_of_lt hlt)
        split
        · rename_i heq
          simp [hq] at heq
        · rename_i t q heq
          simp only [hq, List.nil_append] at heq
          have ht : t = id ∧ q = [] := by
            have h5 := heq.symm
            simp only [List.cons.injEq] at h5
            exact ⟨h5.1, h5.2⟩
          obtain ⟨rfl, rfl⟩ := ht
          refine ⟨by simpa using Nat.succ_le_of_lt hlt, ?_, by simp, by simpa using h4⟩
          simp [hq, ← h2]
  | settle id =>
    simp only [limStep] at h
    split at h
    · rename_i hmem
      injection h with h
      subst h
      have hlen : (s.active.erase id).length = s.active.length - 1 :=
        List.length_erase_of_mem hmem
      have hpos : 1 ≤ s.active.length := List.length_pos.mpr (by
        intro hnil; rw [hnil] at hmem; exact absurd hmem (List.not_mem_nil id))
      unfold runNext
      split
      · rename_i hge
        simp only [hlen] at hge
        refine ⟨by omega, by simpa using h2, fun hh => by omega, ?_⟩
        simp only [List.mem_append, List.mem_singleton]
        rintro p (hp | rfl)
        · exact h4 p hp
        · rfl
      · split
        · rename_i hq
          refine ⟨by simp only [hlen]; omega, by simpa using h2, by simp_all, ?_⟩
          simp only [List.mem_append, List.mem_singleton]
          rintro p (hp | rfl)
          · exact h4 p hp
          · rfl
        · rename_i t q hq
          have hq' : s.queue = t :: q := hq
          have hql : s.queue ≠ [] := by simp [hq']
          have hfull := h3 hql
          refine ⟨?_, ?_, ?_, ?_⟩
          · simp only [List.length_append, List.length_singleton, hlen]
            omega
          · simp only [List.append_assoc, List.singleton_append]
            rw [← hq']
            simpa using h2
          · intro _
            simp only [List.length_append, List.length_singleton, hlen]
            omega
          · simp only [List.mem_append, List.mem_singleton]
            rintro p (hp | rfl)
            · exact h4 p hp
            · rfl
    · exact absurd h (by simp)

lemma limRun_inv (out : Nat → Nat) (evs : List LimEv) (s₀ s : LimSt)
    (hInv : LimInv out s₀) (h : limRun out evs s₀ = some s) : LimInv out s := by
  induction evs generalizing s₀ with
  | nil =>
    simp only [limRun] at h
    injection h with h
    exact h ▸ hInv
  | cons e es ih =>
    simp only [limRun] at h
    split at h
    · rename_i s₁ hstep
      exact ih s₁ (limStep_inv out s₀ s₁ e hInv hstep) h
    · exact absurd h (by simp)

lemma limInit_inv (out : Nat → Nat) (n : Nat) : LimInv out (limInit n) := by
  refine ⟨by simp [limInit], by simp [limInit], by simp [limInit], by simp [limInit]⟩

lemma runNext_limit (s : LimSt) : (runNext s).limit = s.limit := by
  unfold runNext
  split
  · rfl
  · split <;> rfl

lemma limStep_limit (out : Nat → Nat) (s s' : LimSt) (e : LimEv)
    (h : limStep out s e = some s') : s'.limit = s.limit := by
  cases e with
  | submit id =>
    simp only [limStep] at h
    split at h
    · exact absurd h (by simp)
    · injection h with h
      subst h
      exact runNext_limit _
  | settle id =>
    simp only [limStep] at h
    split at h
    · injection h with h
      subst h
      exact runNext_limit _
    · exact absurd h (by simp)

lemma limRun_limit (out : Nat → Nat) (evs : List LimEv) (s₀ s : LimSt)
    (h : limRun out evs s₀ = some s) : s.limit = s₀.limit := by
  induction evs generalizing s₀ with
  | nil =>
    simp only [limRun] at h
    injection h with h
    exact h ▸ rfl
  | cons e es ih =>
    simp only [limRun] at h
    split at h
    · rename_i s₁ hstep
      exact (ih s₁ h).trans (limStep_limit out s₀ s₁ e hstep)
    · exact absurd h (by simp)

/-- C4: for a limiter created with a positive limit n, in every reachable
state at most n units are running, the admission history is a prefix of
the submission history (strict FIFO admission), every settled result is
the unit's own outcome, and whenever a running unit settles while the
queue is nonempty, the queue head is admitted in that very step. -/
theorem limiter_fifo_bounded (out : Nat → Nat) (n : Nat) (hn : 0 < n)
    (evs : List LimEv) (s : LimSt)
    (h : limRun out evs (limInit n) = some s) :
    s.active.length ≤ n ∧
    s.admitLog <+: s.submitLog ∧
    (∀ p ∈ s.results, p.2 = out p.1) ∧
    (∀ id t q s', s.queue = t :: q → limStep out s (.settle id) = some s' →
      t ∈ s'.active ∧ s'.queue = q ∧ s'.admitLog = s.admitLog ++ [t]) := by
  have hInv := limRun_inv out evs (limInit n) s (limInit_inv out n) h
  have hlim : s.limit = n := limRun_limit out evs (limInit n) s h
  obtain ⟨h1, h2, h3, h4⟩ := hInv
  refine ⟨hlim ▸ h1, ⟨s.queue, h2⟩, h4, ?_⟩
  intro id t q s' hq hstep
  simp only [limStep] at hstep
  split at hstep
  · rename_i hmem
    injection hstep with hstep
    subst hstep
    have hlen : (s.active.erase id).length = s.active.length - 1 :=
      List.length_erase_of_mem hmem
    have hpos : 1 ≤ s.active.length := List.length_pos.mpr (by
      intro hnil; rw [hnil] at hmem; exact absurd hmem (List.not_mem_nil id))
    have hfull : s.active.length = s.limit := h3 (by simp [hq])
    unfold runNext
    split
    · rename_i hge
      simp only [hlen] at hge
      omega
    · split
      · rename_i hq2
        have hq2' : s.queue = [] := hq2
        rw [hq2'] at hq
        exact absurd hq (by simp)
      · rename_i t' q' hq2
        have hq2' : s.queue = t' :: q' := hq2
        rw [hq] at hq2'
        obtain ⟨rfl, rfl⟩ : t = t' ∧ q = q' := by
          have h5 := hq2'
          simp only [List.cons.injEq] at h5
          exact ⟨h5.1, h5.2⟩
        exact ⟨by simp, rfl, rfl⟩
  · exact absurd hstep (by simp)

/-- The outcomes used in the concrete limiter run. -/
def outW : Nat → Nat := fun id => id * 10

/-- A concrete interleaving: limit 2, four submissions, completions in
arrival order. -/
def evsW : List LimEv :=
  [.submit 1, .submit 2, .submit 3, .submit 4,
   .settle 1, .settle 2, .settle 3, .settle 4]

/-- The state evsW reaches from limInit 2. -/
def limFinalW : LimSt :=
  { limit := 2, active := [], queue := [], admitLog := [1, 2, 3, 4],
    submitLog := [1, 2, 3, 4],
    results := [(1, 10), (2, 20), (3, 30), (4, 40)] }

/-- Witness for C4 at a concrete run. -/
theorem limiter_fifo_bounded_witness :
    limFinalW.active.length ≤ 2 ∧
    limFinalW.admitLog <+: limFinalW.submitLog ∧
    (∀ p ∈ limFinalW.results, p.2 = outW p.1) := by
  have h : limRun outW evsW (limInit 2) = some limFinalW := by decide
  have := limiter_fifo_bounded outW 2 (by decide) evsW limFinalW h
  exact ⟨this.1, this.2.1, this.2.2.1⟩

/-! ## C6: normalizeVersionForMonorepo -/

lemma not_workspace_of_catalog (t : List Char)
    (h : "catalog:".toList <+: t) : ¬ "workspace:".toList <+: t := by
  intro hw
  obtain ⟨t1, e1⟩ := h
  obtain ⟨t2, e2⟩ := hw
  rw [← e1] at e2
  simp [String.toList] at e2

/-- C6 counterexample: a catalog map whose entry for the package exists but
is the empty string.  The claim requires resolution to that entry with
fromCatalog true; the code's truthiness test skips instead. -/
theorem normalize_empty_entry_cex :
    lookupA [("a".toList, ([] : List Char))] "a".toList = some [] ∧
    normalizeVersionForMonorepo "a".toList "catalog:".toList
      [("a".toList, ([] : List Char))] = { skip := true } := by
  constructor
  · decide
  · decide

/-- C6 (amended): resolution first trims the specifier; workspace:
specifiers are skipped; catalog: specifiers whose trimmed remainder is
empty or '.' resolve to the catalog entry (fromCatalog true) when that
entry exists and is nonempty, and are skipped when it is absent or
empty; any other catalog: remainder (named alias) is skipped; any other
specifier resolves to the trimmed specifier itself. -/
theorem normalizeVersion_cases (name raw : List Char)
    (cat : List (List Char × List Char)) :
    (("workspace:".toList <+: trimC raw) →
       normalizeVersionForMonorepo name raw cat = { skip := true }) ∧
    (∀ v, ("catalog:".toList <+: trimC raw) →
       (trimC ((trimC raw).drop 8) = [] ∨ trimC ((trimC raw).drop 8) = ['.']) →
       lookupA cat name = some v → v ≠ [] →
       normalizeVersionForMonorepo name raw cat =
         { skip := false, resolvedVersion := some v, fromCatalog := some true }) ∧
    (("catalog:".toList <+: trimC raw) →
       (trimC ((trimC raw).drop 8) = [] ∨ trimC ((trimC raw).drop 8) = ['.']) →
       (lookupA cat name = none ∨ lookupA cat name = some []) →
       normalizeVersionForMonorepo name raw cat = { skip := true }) ∧
    (("catalog:".toList <+: trimC raw) →
       ¬(trimC ((trimC raw).drop 8) = [] ∨ trimC ((trimC raw).drop 8) = ['.']) →
       normalizeVersionForMonorepo name raw cat = { skip := true }) ∧
    ((¬ "workspace:".toList <+: trimC raw) →
     (¬ "catalog:".toList <+: trimC raw) →
       normalizeVersionForMonorepo name raw cat =
         { skip := false, resolvedVersion := some (trimC raw) }) := by
  unfold normalizeVersionForMonorepo
  refine ⟨?_, ?_, ?_, ?_, ?_⟩
  · intro hw
    rw [if_pos (List.isPrefixOf_iff_prefix.mpr hw)]
  · intro v hc hrem hlook hv
    rw [if_neg (by
        rw [List.isPrefixOf_iff_prefix]
        exact not_workspace_of_catalog _ hc),
      if_pos (List.isPrefixOf_iff_prefix.mpr hc)]
    simp only [if_pos hrem, hlook]
    rw [if_neg hv]
  · intro hc hrem hlook
    rw [if_neg (by
        rw [List.isPrefixOf_iff_prefix]
        exact not_workspace_of_catalog _ hc),
      if_pos (List.isPrefixOf_iff_prefix.mpr hc)]
    simp only [if_pos hrem]
    rcases hlook with hl | hl
    · rw [hl]
    · rw [hl]
      simp
  · intro hc hrem
    rw [if_neg (by
        rw [List.isPrefixOf_iff_prefix]
        exact not_workspace_of_catalog _ hc),
      if_pos (List.isPrefixOf_iff_prefix.mpr hc)]
    simp only [if_neg hrem]
  · intro hw hc
    rw [if_neg (by rw [List.isPrefixOf_iff_prefix]; exact hw),
      if_neg (by rw [List.isPrefixOf_iff_prefix]; exact hc)]

/-- Witness for C6 at concrete inputs: a catalog: specifier with
surrounding whitespace resolving through a nonempty catalog entry. -/
theorem normalizeVersion_cases_witness :
    normalizeVersionForMonorepo "a".toList " catalog: ".toList
      [("a".toList, "^1.2.3".toList)] =
      { skip := false, resolvedVersion := some "^1.2.3".toList,
        fromCatalog := some true } :=
  (normalizeVersion_cases "a".toList " catalog: ".toList
      [("a".toList, "^1.2.3".toList)]).2.1 "^1.2.3".toList
    (by decide) (by decide) (by decide) (by decide)

/-! ## C8: extractPinnedVersion -/

/-- The claim's prerelease tail class -[\w.-]+ : \w includes underscore. -/
def isTailSpecC (c : Char) : Bool := isTailC c || c == '_'

/-- Match attempt at the head of s for the claim's pattern
\d+\.\d+\.\d+(-[\w.-]+)? (spec wording; differs from the source only in
the tail class). -/
def semverHereSpec (s : List Char) : Option (List Char) :=
  let d1 := s.takeWhile isDigitC
  if d1.isEmpty then none else
  match s.dropWhile isDigitC with
  | '.' :: r2 =>
    let d2 := r2.takeWhile isDigitC
    if d2.isEmpty then none else
    (match r2.dropWhile isDigitC with
     | '.' :: r4 =>
       let d3 := r4.takeWhile isDigitC
       if d3.isEmpty then none else
       let core := d1 ++ '.' :: d2 ++ '.' :: d3
       (match r4.dropWhile isDigitC with
        | '-' :: r6 =>
          let tl := r6.takeWhile isTailSpecC
          if tl.isEmpty then some core else some (core ++ '-' :: tl)
        | _ => some core)
     | _ => none)
  | _ => none

/-- Leftmost match of the claim's pattern. -/
def semverFirstSpec : List Char → Option (List Char)
  | [] => none
  | c :: rest =>
    match semverHereSpec (c :: rest) with
    | some m => some m
    | none => semverFirstSpec rest

lemma takeWhile_append_all (p : Char → Bool) (a b : List Char)
    (h : ∀ c ∈ a, p c = true) : (a ++ b).takeWhile p = a ++ b.takeWhile p := by
  induction a with
  | nil => simp
  | cons c a ih =>
    have hc : p c = true := h c (by simp)
    simp [List.takeWhile_cons, hc, ih (fun x hx => h x (by simp [hx]))]

lemma dropWhile_append_all (p : Char → Bool) (a b : List Char)
    (h : ∀ c ∈ a, p c = true) : (a ++ b).dropWhile p = b.dropWhile p := by
  induction a with
  | nil => simp
  | cons c a ih =>
    have hc : p c = true := h c (by simp)
    simp [List.dropWhile_cons, hc, ih (fun x hx => h x (by simp [hx]))]

lemma prefix_takeWhile (p : Char → Bool) (a l : List Char)
    (h : ∀ c ∈ a, p c = true) (hp : a <+: l) : a <+: l.takeWhile p := by
  obtain ⟨t, rfl⟩ := hp
  rw [takeWhile_append_all p a t h]
  exact ⟨t.takeWhile p, rfl⟩

/-- Declarative shape of a SEMVER_RE match: three nonempty digit runs
separated by dots, with an optional '-' plus nonempty run of tail
characters. -/
def SemverShape (m : List Char) : Prop :=
  ∃ d1 d2 d3 t, d1 ≠ [] ∧ (∀ c ∈ d1, isDigitC c = true) ∧
    d2 ≠ [] ∧ (∀ c ∈ d2, isDigitC c = true) ∧
    d3 ≠ [] ∧ (∀ c ∈ d3, isDigitC c = true) ∧
    (t = [] ∨ ∃ u, u ≠ [] ∧ (∀ c ∈ u, isTailC c = true) ∧ t = '-' :: u) ∧
    m = d1 ++ '.' :: d2 ++ '.' :: d3 ++ t

lemma semverHere_sound (s m : List Char) (h : semverHere s = some m) :
    SemverShape m ∧ m <+: s := by
  simp only [semverHere] at h
  set d1 := s.takeWhile isDigitC with hd1e
  have hs1 : d1 ++ s.dropWhile isDigitC = s := List.takeWhile_append_dropWhile _ _
  split at h
  · exact absurd h (by simp)
  rename_i h1
  split at h
  · rename_i r2 heq1
    set d2 := r2.takeWhile isDigitC with hd2e
    have hs2 : d2 ++ r2.dropWhile isDigitC = r2 := List.takeWhile_append_dropWhile _ _
    split at h
    · exact absurd h (by simp)
    rename_i h2
    split at h
    · rename_i r4 heq2
      set d3 := r4.takeWhile isDigitC with hd3e
      have hs3 : d3 ++ r4.dropWhile isDigitC = r4 := List.takeWhile_append_dropWhile _ _
      split at h
      · exact absurd h (by simp)
      rename_i h3
      have hd1 : d1 ≠ [] := by simpa [List.isEmpty_iff] using h1
      have hd2 : d2 ≠ [] := by simpa [List.isEmpty_iff] using h2
      have hd3 : d3 ≠ [] := by simpa [List.isEmpty_iff] using h3
      have ha1 : ∀ c ∈ d1, isDigitC c = true :=
        fun c hc => List.mem_takeWhile_imp (hd1e ▸ hc)
      have ha2 : ∀ c ∈ d2, isDigitC c = true :=
        fun c hc => List.mem_takeWhile_imp (hd2e ▸ hc)
      have ha3 : ∀ c ∈ d3, isDigitC c = true :=
        fun c hc => List.mem_takeWhile_imp (hd3e ▸ hc)
      have hsdec : s = d1 ++ '.' :: (d2 ++ '.' :: (d3 ++ r4.dropWhile isDigitC)) := by
        rw [hs3, ← heq2, hs2, ← heq1, hs1]
      split at h
      · rename_i r6 heq3
        split at h
        · injection h with h
          subst h
          refine ⟨⟨d1, d2, d3, [], hd1, ha1, hd2, ha2, hd3, ha3,
            Or.inl rfl, by simp⟩, ?_⟩
          refine ⟨'-' :: r6, ?_⟩
          conv_rhs => rw [hsdec, heq3]
          simp
        · rename_i h4
          injection h with h
          subst h
          set tl := r6.takeWhile isTailC with htle
          have htl : tl ≠ [] := by simpa [List.isEmpty_iff] using h4
          have hatl : ∀ c ∈ tl, isTailC c = true :=
            fun c hc => List.mem_takeWhile_imp (htle ▸ hc)
          have hr6 : tl ++ r6.dropWhile isTailC = r6 :=
            List.takeWhile_append_dropWhile _ _
          refine ⟨⟨d1, d2, d3, '-' :: tl, hd1, ha1, hd2, ha2, hd3, ha3,
            Or.inr ⟨tl, htl, hatl, rfl⟩, by simp⟩, ?_⟩
          refine ⟨r6.dropWhile isTailC, ?_⟩
          conv_rhs => rw [hsdec, heq3, ← hr6]
          simp
      · rename_i hne
        injection h with h
        subst h
        refine ⟨⟨d1, d2, d3, [], hd1, ha1, hd2, ha2, hd3, ha3,
          Or.inl rfl, by simp⟩, ?_⟩
        refine ⟨r4.dropWhile isDigitC, ?_⟩
        conv_rhs => rw [hsdec]
        simp
    · exact absurd h (by simp)
  · exact absurd h (by simp)

lemma takeWhile_dropWhile_nil (p : Char → Bool) (l : List Char) :
    (l.dropWhile p).takeWhile p = [] := by
  induction l with
  | nil => simp
  | cons c l ih =>
    by_cases hc : p c = true
    · simpa [List.dropWhile_cons, hc] using ih
    · simp only [List.dropWhile_cons]
      rw [if_neg (by simp [hc])]
      simp [List.takeWhile_cons, hc]

/-- Computation of semverHere on an aligned decomposition whose remainder
starts with '-': three nonempty digit runs then the optional tail. -/
lemma semverHere_decomp_dash (d1 d2 d3 r6 : List Char)
    (hd1 : d1 ≠ []) (ha1 : ∀ c ∈ d1, isDigitC c = true)
    (hd2 : d2 ≠ []) (ha2 : ∀ c ∈ d2, isDigitC c = true)
    (hd3 : d3 ≠ []) (ha3 : ∀ c ∈ d3, isDigitC c = true) :
    semverHere (d1 ++ '.' :: (d2 ++ '.' :: (d3 ++ '-' :: r6))) =
      (if (r6.takeWhile isTailC).isEmpty then some (d1 ++ '.' :: d2 ++ '.' :: d3)
       else some ((d1 ++ '.' :: d2 ++ '.' :: d3) ++ '-' :: r6.takeWhile isTailC)) := by
  have t1 : (d1 ++ '.' :: (d2 ++ '.' :: (d3 ++ '-' :: r6))).takeWhile isDigitC = d1 := by
    rw [takeWhile_append_all _ _ _ ha1]
    simp [List.takeWhile_cons, isDigitC]
  have t2 : (d1 ++ '.' :: (d2 ++ '.' :: (d3 ++ '-' :: r6))).dropWhile isDigitC =
      '.' :: (d2 ++ '.' :: (d3 ++ '-' :: r6)) := by
    rw [dropWhile_append_all _ _ _ ha1]
    simp [List.dropWhile_cons, isDigitC]
  have t3 : (d2 ++ '.' :: (d3 ++ '-' :: r6)).takeWhile isDigitC = d2 := by
    rw [takeWhile_append_all _ _ _ ha2]
    simp [List.takeWhile_cons, isDigitC]
  have t4 : (d2 ++ '.' :: (d3 ++ '-' :: r6)).dropWhile isDigitC =
      '.' :: (d3 ++ '-' :: r6) := by
    rw [dropWhile_append_all _ _ _ ha2]
    simp [List.dropWhile_cons, isDigitC]
  have t5 : (d3 ++ '-' :: r6).takeWhile isDigitC = d3 := by
    rw [takeWhile_append_all _ _ _ ha3]
    simp [List.takeWhile_cons, isDigitC]
  have t6 : (d3 ++ '-' :: r6).dropWhile isDigitC = '-' :: r6 := by
    rw [dropWhile_append_all _ _ _ ha3]
    simp [List.dropWhile_cons, isDigitC]
  simp only [semverHere, t1, t2, t3, t4, t5, t6]
  rw [if_neg (by simpa [List.isEmpty_iff] using hd1),
    if_neg (by simpa [List.isEmpty_iff] using hd2),
    if_neg (by simpa [List.isEmpty_iff] using hd3)]

/-- Computation of semverHere on an aligned decomposition whose remainder
starts with neither a digit nor '-'. -/
lemma semverHere_decomp_plain (d1 d2 d3 rest : List Char)
    (hd1 : d1 ≠ []) (ha1 : ∀ c ∈ d1, isDigitC c = true)
    (hd2 : d2 ≠ []) (ha2 : ∀ c ∈ d2, isDigitC c = true)
    (hd3 : d3 ≠ []) (ha3 : ∀ c ∈ d3, isDigitC c = true)
    (hrest : rest.takeWhile isDigitC = [])
    (hnd : ∀ r6, rest ≠ '-' :: r6) :
    semverHere (d1 ++ '.' :: (d2 ++ '.' :: (d3 ++ rest))) =
      some (d1 ++ '.' :: d2 ++ '.' :: d3) := by
  have hrest' : rest.dropWhile isDigitC = rest := by
    cases hre : rest with
    | nil => simp
    | cons c r =>
      rw [hre] at hrest
      simp only [List.takeWhile_cons] at hrest
      by_cases hc : isDigitC c = true
      · rw [if_pos hc] at hrest
        exact absurd hrest (by simp)
      · simp only [List.dropWhile_cons]
        rw [if_neg (by simp [hc])]
  have t1 : (d1 ++ '.' :: (d2 ++ '.' :: (d3 ++ rest))).takeWhile isDigitC = d1 := by
    rw [takeWhile_append_all _ _ _ ha1]
    simp [List.takeWhile_cons, isDigitC]
  have t2 : (d1 ++ '.' :: (d2 ++ '.' :: (d3 ++ rest))).dropWhile isDigitC =
      '.' :: (d2 ++ '.' :: (d3 ++ rest)) := by
    rw [dropWhile_append_all _ _ _ ha1]
    simp [List.dropWhile_cons, isDigitC]
  have t3 : (d2 ++ '.' :: (d3 ++ rest)).takeWhile isDigitC = d2 := by
    rw [takeWhile_append_all _ _ _ ha2]
    simp [List.takeWhile_cons, isDigitC]
  have t4 : (d2 ++ '.' :: (d3 ++ rest)).dropWhile isDigitC = '.' :: (d3 ++ rest) := by
    rw [dropWhile_append_all _ _ _ ha2]
    simp [List.dropWhile_cons, isDigitC]
  have t5 : (d3 ++ rest).takeWhile isDigitC = d3 := by
    rw [takeWhile_append_all _ _ _ ha3, hrest]
    simp
  have t6 : (d3 ++ rest).dropWhile isDigitC = rest := by
    rw [dropWhile_append_all _ _ _ ha3, hrest']
  simp only [semverHere, t1, t2, t3, t4, t5, t6]
  rw [if_neg (by simpa [List.isEmpty_iff] using hd1),
    if_neg (by simpa [List.isEmpty_iff] using hd2),
    if_neg (by simpa [List.isEmpty_iff] using hd3)]

lemma semverHere_isSome_decomp (d1 d2 d3 rest : List Char)
    (hd1 : d1 ≠ []) (ha1 : ∀ c ∈ d1, isDigitC c = true)
    (hd2 : d2 ≠ []) (ha2 : ∀ c ∈ d2, isDigitC c = true)
    (hd3 : d3 ≠ []) (ha3 : ∀ c ∈ d3, isDigitC c = true)
    (hrest : rest.takeWhile isDigitC = []) :
    semverHere (d1 ++ '.' :: (d2 ++ '.' :: (d3 ++ rest))) ≠ none := by
  cases hre : rest with
  | nil =>
    rw [semverHere_decomp_plain d1 d2 d3 [] hd1 ha1 hd2 ha2 hd3 ha3 (by simp)
      (by simp)]
    simp
  | cons c r6 =>
    by_cases hc : c = '-'
    · subst hc
      rw [semverHere_decomp_dash d1 d2 d3 r6 hd1 ha1 hd2 ha2 hd3 ha3]
      split <;> simp
    · rw [semverHere_decomp_plain d1 d2 d3 (c :: r6) hd1 ha1 hd2 ha2 hd3 ha3
        (hre ▸ hrest) (by intro r7 hcontra; exact hc (by injection hcontra))]
      simp

lemma semverHere_core_prefix (d1 d2 d3 rest m : List Char)
    (hd1 : d1 ≠ []) (ha1 : ∀ c ∈ d1, isDigitC c = true)
    (hd2 : d2 ≠ []) (ha2 : ∀ c ∈ d2, isDigitC c = true)
    (hd3 : d3 ≠ []) (ha3 : ∀ c ∈ d3, isDigitC c = true)
    (hrest : rest.takeWhile isDigitC = [])
    (h : semverHere (d1 ++ '.' :: (d2 ++ '.' :: (d3 ++ rest))) = some m) :
    (d1 ++ '.' :: d2 ++ '.' :: d3) <+: m := by
  cases hre : rest with
  | nil =>
    rw [hre, semverHere_decomp_plain d1 d2 d3 [] hd1 ha1 hd2 ha2 hd3 ha3 (by simp)
      (by simp)] at h
    injection h with h
    exact h ▸ ⟨[], by simp⟩
  | cons c r6 =>
    by_cases hc : c = '-'
    · subst hc
      rw [hre, semverHere_decomp_dash d1 d2 d3 r6 hd1 ha1 hd2 ha2 hd3 ha3] at h
      split at h
      · injection h with h
        exact h ▸ ⟨[], by simp⟩
      · injection h with h
        exact h ▸ ⟨'-' :: r6.takeWhile isTailC, rfl⟩
    · rw [hre, semverHere_decomp_plain d1 d2 d3 (c :: r6) hd1 ha1 hd2 ha2 hd3 ha3
        (hre ▸ hrest) (by intro r7 hcontra; exact hc (by injection hcontra))] at h
      injection h with h
      exact h ▸ ⟨[], by simp⟩

lemma semverHere_shape_isSome (s m : List Char) (hsh : SemverShape m)
    (hp : m <+: s) : semverHere s ≠ none := by
  obtain ⟨d1, d2, d3, t, hd1, ha1, hd2, ha2, hd3, ha3, ht, rfl⟩ := hsh
  obtain ⟨X, rfl⟩ := hp
  rcases ht with rfl | ⟨u, hu, hau, rfl⟩
  · have he : (d1 ++ '.' :: d2 ++ '.' :: d3 ++ ([] : List Char)) ++ X =
        d1 ++ '.' :: (d2 ++ '.' :: ((d3 ++ X.takeWhile isDigitC) ++
          X.dropWhile isDigitC)) := by
      simp [List.append_assoc, List.takeWhile_append_dropWhile]
    rw [he]
    refine semverHere_isSome_decomp _ _ _ _ hd1 ha1 hd2 ha2 ?_ ?_ ?_
    · simp [hd3]
    · intro c hc
      rcases List.mem_append.mp hc with hc | hc
      · exact ha3 c hc
      · exact List.mem_takeWhile_imp hc
    · exact takeWhile_dropWhile_nil _ _
  · have he : (d1 ++ '.' :: d2 ++ '.' :: d3 ++ '-' :: u) ++ X =
        d1 ++ '.' :: (d2 ++ '.' :: (d3 ++ '-' :: (u ++ X))) := by
      simp [List.append_assoc]
    rw [he]
    refine semverHere_isSome_decomp _ _ _ _ hd1 ha1 hd2 ha2 hd3 ha3 ?_
    simp [List.takeWhile_cons, isDigitC]

lemma semverHere_max (s m m' : List Char) (h : semverHere s = some m)
    (hsh : SemverShape m') (hp : m' <+: s) : m' <+: m := by
  obtain ⟨d1, d2, d3, t, hd1, ha1, hd2, ha2, hd3, ha3, ht, rfl⟩ := hsh
  obtain ⟨X, hX⟩ := hp
  rcases ht with rfl | ⟨u, hu, hau, rfl⟩
  · have he : (d1 ++ '.' :: d2 ++ '.' :: d3 ++ ([] : List Char)) ++ X =
        d1 ++ '.' :: (d2 ++ '.' :: ((d3 ++ X.takeWhile isDigitC) ++
          X.dropWhile isDigitC)) := by
      simp [List.append_assoc, List.takeWhile_append_dropWhile]
    rw [← hX, he] at h
    have hcore := semverHere_core_prefix _ _ _ _ m hd1 ha1 hd2 ha2
      (by simp [hd3])
      (by
        intro c hc
        rcases List.mem_append.mp hc with hc | hc
        · exact ha3 c hc
        · exact List.mem_takeWhile_imp hc)
      (takeWhile_dropWhile_nil _ _) h
    refine List.IsPrefix.trans ?_ hcore
    refine ⟨X.takeWhile isDigitC, ?_⟩
    simp [List.append_assoc]
  · have he : (d1 ++ '.' :: d2 ++ '.' :: d3 ++ '-' :: u) ++ X =
        d1 ++ '.' :: (d2 ++ '.' :: (d3 ++ '-' :: (u ++ X))) := by
      simp [List.append_assoc]
    rw [← hX, he] at h
    rw [semverHere_decomp_dash d1 d2 d3 (u ++ X) hd1 ha1 hd2 ha2 hd3 ha3] at h
    have htw : (u ++ X).takeWhile isTailC = u ++ X.takeWhile isTailC :=
      takeWhile_append_all _ _ _ hau
    rw [htw] at h
    rw [if_neg (by simp [List.isEmpty_iff, hu])] at h
    injection h with h
    refine ⟨X.takeWhile isTailC, ?_⟩
    rw [← h]
    simp [List.append_assoc]

lemma semverFirst_sound (s m : List Char) (h : semverFirst s = some m) :
    ∃ i, semverHere (s.drop i) = some m ∧
      ∀ j, j < i → semverHere (s.drop j) = none := by
  induction s with
  | nil => simp [semverFirst] at h
  | cons c rest ih =>
    simp only [semverFirst] at h
    split at h
    · rename_i m0 heq
      injection h with h
      subst h
      exact ⟨0, by simpa using heq, fun j hj => absurd hj (Nat.not_lt_zero j)⟩
    · rename_i heq
      obtain ⟨i, h1, h2⟩ := ih h
      refine ⟨i + 1, by simpa using h1, ?_⟩
      intro j hj
      cases j with
      | zero => simpa using heq
      | succ j => simpa using h2 j (by omega)

lemma semverFirst_none (s : List Char) (h : semverFirst s = none) :
    ∀ j, semverHere (s.drop j) = none := by
  induction s with
  | nil =>
    intro j
    simp [semverHere]
  | cons c rest ih =>
    simp only [semverFirst] at h
    split at h
    · exact absurd h (by simp)
    · rename_i heq
      intro j
      cases j with
      | zero => simpa using heq
      | succ j => simpa using ih h j

/-- C8 (amended): extractPinnedVersion returns the leftmost, maximal
substring matching the source pattern \d+\.\d+\.\d+(?:-[0-9A-Za-z.-]+)?
(tail class without underscore) when one exists anywhere in s, and
otherwise strips at most one leading '~'/'^' together with surrounding
whitespace. -/
theorem extractPinnedVersion_correct (s : List Char) :
    ((∃ j m, SemverShape m ∧ m <+: s.drop j) →
      ∃ i, (SemverShape (extractPinnedVersion s) ∧
              extractPinnedVersion s <+: s.drop i) ∧
        (∀ j, j < i → ∀ m, SemverShape m → ¬ m <+: s.drop j) ∧
        (∀ m, SemverShape m → m <+: s.drop i → m <+: extractPinnedVersion s)) ∧
    ((∀ j m, SemverShape m → ¬ m <+: s.drop j) →
      ((∀ rest, s.dropWhile isWsC ≠ '~' :: rest ∧ s.dropWhile isWsC ≠ '^' :: rest) →
          extractPinnedVersion s = trimC s) ∧
      (∀ rest, (s.dropWhile isWsC = '~' :: rest ∨ s.dropWhile isWsC = '^' :: rest) →
          extractPinnedVersion s = trimC rest)) := by
  constructor
  · rintro ⟨j, m, hsh, hp⟩
    cases hfst : semverFirst s with
    | none =>
      exact absurd (semverFirst_none s hfst j)
        (semverHere_shape_isSome (s.drop j) m hsh hp)
    | some m0 =>
      have hext : extractPinnedVersion s = m0 := by
        simp [extractPinnedVersion, hfst]
      obtain ⟨i, hi, hlt⟩ := semverFirst_sound s m0 hfst
      have hsound := semverHere_sound _ _ hi
      refine ⟨i, ⟨hext ▸ hsound.1, hext ▸ hsound.2⟩, ?_, ?_⟩
      · intro j' hj' m' hsh' hp'
        exact absurd (hlt j' hj') (semverHere_shape_isSome _ _ hsh' hp')
      · intro m' hsh' hp'
        rw [hext]
        exact semverHere_max _ _ _ hi hsh' hp'
  · intro hnone
    have hfst : semverFirst s = none := by
      cases hfst : semverFirst s with
      | none => rfl
      | some m0 =>
        obtain ⟨i, hi, _⟩ := semverFirst_sound s m0 hfst
        have hs := semverHere_sound _ _ hi
        exact absurd hs.2 (hnone i m0 hs.1)
    constructor
    · intro hne
      simp only [extractPinnedVersion, hfst]
      cases hd : s.dropWhile isWsC with
      | nil => rfl
      | cons c rest =>
        have hc := hne rest
        rw [hd] at hc
        have hc1 : c ≠ '~' := fun hcc => hc.1 (by rw [hcc])
        have hc2 : c ≠ '^' := fun hcc => hc.2 (by rw [hcc])
        show (if (c == '~' || c == '^') = true then trimC rest else trimC s) =
          trimC s
        rw [if_neg (by simp [hc1, hc2])]
    · intro rest hrest
      simp only [extractPinnedVersion, hfst]
      rcases hrest with hd | hd <;> simp [hd]

/-- Witness for C8 at a concrete input containing a semver substring. -/
theorem extractPinnedVersion_correct_witness :
    SemverShape (extractPinnedVersion "x1.2.3y".toList) ∧
    extractPinnedVersion "x1.2.3y".toList = "1.2.3".toList := by
  have h := (extractPinnedVersion_correct "x1.2.3y".toList).1
    ⟨1, "1.2.3".toList,
      ⟨['1'], ['2'], ['3'], [], by decide, by decide, by decide, by decide,
        by decide, by decide, Or.inl rfl, by decide⟩,
      ⟨['y'], by decide⟩⟩
  obtain ⟨i, ⟨hsh, _⟩, _, _⟩ := h
  exact ⟨hsh, by decide⟩

/-- C8 counterexample: the claim's tail class \w contains an underscore,
the source's [0-9A-Za-z.-] does not; on "1.2.3-rc_1" the claim's pattern
matches "1.2.3-rc_1" first, but the code extracts "1.2.3-rc". -/
theorem extractPinnedVersion_underscore_cex :
    semverFirstSpec "1.2.3-rc_1".toList = some "1.2.3-rc_1".toList ∧
    extractPinnedVersion "1.2.3-rc_1".toList = "1.2.3-rc".toList ∧
    extractPinnedVersion "1.2.3-rc_1".toList ≠ "1.2.3-rc_1".toList := by
  refine ⟨by decide, by decide, by decide⟩

/-! ## C7: section-header grammar -/

/-- Declarative key pattern of the claim's amended grammar: the quoted key
is dependencies, or letters only ending in Dependencies with at least
one letter before the literal. -/
def KeyPatP (k : List Char) : Prop :=
  k = "dependencies".toList ∨
  (k ≠ [] ∧ (∀ c ∈ k, isLetterC c = true) ∧
    "Dependencies".toList <:+ k ∧ 12 < k.length)

/-- Declarative section-header grammar: optional leading whitespace, a
double-quoted key matching KeyPatP, optional whitespace, a colon, and an
arbitrary remainder (the regex's trailing \s*\{? always matches). -/
def HeaderGrammar (l k : List Char) : Prop :=
  ∃ w w2 rest, (∀ c ∈ w, isWsC c = true) ∧ (∀ c ∈ w2, isWsC c = true) ∧
    KeyPatP k ∧ l = w ++ '"' :: (k ++ '"' :: (w2 ++ ':' :: rest))

lemma headerKeyPat_iff (k : List Char) :
    headerKeyPat k = true ↔ KeyPatP k := by
  unfold headerKeyPat KeyPatP
  rw [Bool.or_eq_true, beq_iff_eq]
  constructor
  · rintro (h | h)
    · exact Or.inl h
    · simp only [Bool.and_eq_true, List.all_eq_true, decide_eq_true_eq] at h
      obtain ⟨⟨hall, hsuf⟩, hlen⟩ := h
      refine Or.inr ⟨?_, hall, List.isSuffixOf_iff_suffix.mp hsuf, hlen⟩
      intro hk
      rw [hk] at hlen
      simp at hlen
  · rintro (h | ⟨hne, hall, hsuf, hlen⟩)
    · exact Or.inl h
    · refine Or.inr ?_
      simp only [Bool.and_eq_true, List.all_eq_true, decide_eq_true_eq]
      exact ⟨⟨hall, List.isSuffixOf_iff_suffix.mpr hsuf⟩, hlen⟩

lemma keyPatP_letters (k : List Char) (h : KeyPatP k) :
    ∀ c ∈ k, isLetterC c = true := by
  rcases h with rfl | ⟨_, hall, _, _⟩
  · decide
  · exact hall

lemma headerKeyOf_iff (l k : List Char) :
    headerKeyOf l = some k ↔ HeaderGrammar l k := by
  constructor
  · intro h
    simp only [headerKeyOf] at h
    split at h
    · rename_i r2 heq1
      split at h
      · rename_i r3 heq2
        split at h
        · rename_i rest heq3
          split at h
          · rename_i hpat
            injection h with h
            subst h
            refine ⟨l.takeWhile isWsC, r3.takeWhile isWsC, rest,
              fun c hc => List.mem_takeWhile_imp hc,
              fun c hc => List.mem_takeWhile_imp hc,
              (headerKeyPat_iff _).mp hpat, ?_⟩
            have e1 : l.takeWhile isWsC ++ l.dropWhile isWsC = l :=
              List.takeWhile_append_dropWhile _ _
            have e2 : r2.takeWhile isLetterC ++ r2.dropWhile isLetterC = r2 :=
              List.takeWhile_append_dropWhile _ _
            have e3 : r3.takeWhile isWsC ++ r3.dropWhile isWsC = r3 :=
              List.takeWhile_append_dropWhile _ _
            conv_lhs => rw [← e1, heq1, ← e2, heq2, ← e3, heq3]
          · exact absurd h (by simp)
        · exact absurd h (by simp)
      · exact absurd h (by simp)
    · exact absurd h (by simp)
  · rintro ⟨w, w2, rest, hw, hw2, hpat, rfl⟩
    have hletters := keyPatP_letters k hpat
    have hd1 : (w ++ '"' :: (k ++ '"' :: (w2 ++ ':' :: rest))).dropWhile isWsC =
        '"' :: (k ++ '"' :: (w2 ++ ':' :: rest)) := by
      rw [dropWhile_append_all _ _ _ hw]
      simp [List.dropWhile_cons, isWsC]
    have hd2 : (k ++ '"' :: (w2 ++ ':' :: rest)).takeWhile isLetterC = k := by
      rw [takeWhile_append_all _ _ _ hletters]
      simp [List.takeWhile_cons, isLetterC]
    have hd3 : (k ++ '"' :: (w2 ++ ':' :: rest)).dropWhile isLetterC =
        '"' :: (w2 ++ ':' :: rest) := by
      rw [dropWhile_append_all _ _ _ hletters]
      simp [List.dropWhile_cons, isLetterC]
    have hd4 : (w2 ++ ':' :: rest).dropWhile isWsC = ':' :: rest := by
      rw [dropWhile_append_all _ _ _ hw2]
      simp [List.dropWhile_cons, isWsC]
    simp only [headerKeyOf, hd1, hd2, hd3, hd4]
    rw [if_pos ((headerKeyPat_iff _).mpr hpat)]

lemma headerOf_iff (l k : List Char) :
    headerOf l = some k ↔ HeaderGrammar l k ∧ k ∈ sectionNames := by
  unfold headerOf
  constructor
  · intro h
    split at h
    · rename_i k0 hk0
      split at h
      · rename_i hmem
        injection h with h
        subst h
        exact ⟨(headerKeyOf_iff _ _).mp hk0, List.elem_iff.mp hmem⟩
      · exact absurd h (by simp)
    · exact absurd h (by simp)
  · rintro ⟨hg, hmem⟩
    rw [(headerKeyOf_iff l k).mpr hg]
    simp [List.elem_iff, hmem]

/-- C7 counterexample: the line has the claim's header grammar with key
bundledDependencies (letters ending in Dependencies), is followed by a
well-formed dependency line, yet the scan emits nothing because the
scanner additionally requires the key to be one of the four
sectionNames. -/
theorem headerGrammar_not_sufficient_cex :
    HeaderGrammar ("\"bundledDependencies\": ".toList ++ ['\x7b'])
      "bundledDependencies".toList ∧
    depLineOf "  \"react\": \"1.0.0\"".toList =
      some ("react".toList, "1.0.0".toList) ∧
    scanGo [("\"bundledDependencies\": ".toList ++ ['\x7b']),
      "  \"react\": \"1.0.0\"".toList, ['\x7d']] 0 false 0 = [] := by
  refine ⟨⟨[], [], (' ' :: ['\x7b']), by decide, by decide, ?_, by decide⟩,
    by decide, by decide⟩
  refine Or.inr ⟨by decide, by decide, ?_, by decide⟩
  decide

/-- C7 (amended): a line satisfying the header grammar opens a tracked
section exactly when its key is one of the four recognized section
names; with a positive net brace count the scanner enters the section
and a following well-formed dependency line is emitted, while a grammar
line whose key is not recognized leaves the scanner state unchanged. -/
theorem headerGrammar_opens_section (l l' : List Char) (ls : List (List Char))
    (i : Nat) (d : Int) :
    (∀ k, HeaderGrammar l k → k ∈ sectionNames → 0 < braceDelta l →
      scanGo (l :: ls) i false d = scanGo ls (i + 1) true (braceDelta l)) ∧
    (∀ k n v, HeaderGrammar l k → k ∈ sectionNames → 0 < braceDelta l →
      depLineOf l' = some (n, v) → 0 < braceDelta l + braceDelta l' →
      scanGo (l :: l' :: ls) i false d =
        { name := n, version := v, packageQuery := n ++ '@' :: v,
          line := i + 1 } :: scanGo ls (i + 2) true (braceDelta l + braceDelta l')) ∧
    (∀ k, HeaderGrammar l k → k ∉ sectionNames →
      scanGo (l :: ls) i false d = scanGo ls (i + 1) false d) := by
  refine ⟨?_, ?_, ?_⟩
  · intro k hg hmem hpos
    rw [scanGo, (headerOf_iff l k).mpr ⟨hg, hmem⟩]
    simp only []
    rw [if_neg (by omega)]
  · intro k n v hg hmem hpos hdep hpos2
    rw [scanGo, (headerOf_iff l k).mpr ⟨hg, hmem⟩]
    simp only []
    rw [if_neg (by omega)]
    rw [scanGo]
    simp only [hdep]
    rw [if_neg (by omega)]
  · intro k hg hmem
    have hnone : headerOf l = none := by
      cases hh : headerOf l with
      | none => rfl
      | some k' =>
        obtain ⟨hg', hmem'⟩ := (headerOf_iff l k').mp hh
        have h1 : headerKeyOf l = some k := (headerKeyOf_iff l k).mpr hg
        have h2 : headerKeyOf l = some k' := (headerKeyOf_iff l k').mpr hg'
        rw [h1] at h2
        injection h2 with h2
        exact absurd hmem' (h2 ▸ hmem)
    rw [scanGo, hnone]

/-- Witness for C7 at a concrete tracked header plus dependency line. -/
theorem headerGrammar_opens_section_witness :
    scanGo [("\"dependencies\": ".toList ++ ['\x7b']),
      "  \"react\": \"18.3.1\",".toList] 0 false 0 =
      [{ name := "react".toList, version := "18.3.1".toList,
         packageQuery := "react@18.3.1".toList, line := 1 }] := by
  have h := (headerGrammar_opens_section ("\"dependencies\": ".toList ++ ['\x7b'])
      "  \"react\": \"18.3.1\",".toList [] 0 0).2.1
    "dependencies".toList "react".toList "18.3.1".toList
    ⟨[], [], (' ' :: ['\x7b']), by decide, by decide, Or.inl rfl, by decide⟩
    (by decide) (by decide) (by decide) (by decide)
  rw [h]
  decide

/-! ## C10: entries lie strictly after a header line -/

lemma scanGo_entry_after_header (ls : List (List Char)) (i : Nat) (inside : Bool)
    (d : Int) (e : DepItem) (he : e ∈ scanGo ls i inside d) :
    i ≤ e.line ∧ (inside = false →
      ∃ j, i ≤ j ∧ j < e.line ∧
        ∃ l, ls.get? (j - i) = some l ∧ (headerOf l).isSome = true) := by
  induction ls generalizing i inside d with
  | nil => simp [scanGo] at he
  | cons l ls ih =>
    cases inside with
    | false =>
      rw [scanGo] at he
      rcases hh : headerOf l with _ | k
      · rw [hh] at he
        obtain ⟨h1, h2⟩ := ih (i + 1) false d he
        refine ⟨by omega, fun _ => ?_⟩
        obtain ⟨j, hj1, hj2, l', hl', hsome⟩ := h2 rfl
        refine ⟨j, by omega, hj2, l', ?_, hsome⟩
        have hji : j - i = (j - (i + 1)) + 1 := by omega
        rw [hji]
        simpa using hl'
      · rw [hh] at he
        simp only [] at he
        split at he
        · obtain ⟨h1, _⟩ := ih (i + 1) false (braceDelta l) he
          refine ⟨by omega, fun _ => ⟨i, le_refl i, by omega, l, by simp, by simp [hh]⟩⟩
        · obtain ⟨h1, _⟩ := ih (i + 1) true (braceDelta l) he
          refine ⟨by omega, fun _ => ⟨i, le_refl i, by omega, l, by simp, by simp [hh]⟩⟩
    | true =>
      rw [scanGo] at he
      split at he
      · obtain ⟨h1, _⟩ := ih (i + 1) false 0 he
        exact ⟨by omega, by simp⟩
      · split at he
        · rename_i nv n v hnv
          rcases List.mem_cons.mp he with rfl | he'
          · exact ⟨le_refl _, by simp⟩
          · obtain ⟨h1, _⟩ := ih (i + 1) true (d + braceDelta l) he'
            exact ⟨by omega, by simp⟩
        · obtain ⟨h1, _⟩ := ih (i + 1) true (d + braceDelta l) he
          exact ⟨by omega, by simp⟩

/-- C10: every emitted entry lies on a line strictly after some line that
passes the scanner's header test, and the one-line section
"dependencies": { "react": "1.0.0" } yields no entries at all. -/
theorem entries_strictly_after_header :
    (∀ lines (e : DepItem), e ∈ scanGo lines 0 false 0 →
      ∃ j, j < e.line ∧
        ∃ l, lines.get? j = some l ∧ (headerOf l).isSome = true) ∧
    parseDependenciesFromText ("\"dependencies\": ".toList ++ '\x7b' ::
      " \"react\": \"1.0.0\" ".toList ++ ['\x7d']) = [] := by
  constructor
  · intro lines e he
    obtain ⟨_, h2⟩ := scanGo_entry_after_header lines 0 false 0 e he
    obtain ⟨j, _, hj2, l, hl, hsome⟩ := h2 rfl
    exact ⟨j, hj2, l, by simpa using hl, hsome⟩
  · decide

/-- Witness for C10: a concrete two-line document whose single entry sits
on line 1, strictly after the header on line 0. -/
theorem entries_strictly_after_header_witness :
    (headerOf ("\"dependencies\": ".toList ++ ['\x7b'])).isSome = true := by
  have h := entries_strictly_after_header.1
    [("\"dependencies\": ".toList ++ ['\x7b']), "  \"react\": \"18.3.1\",".toList]
    { name := "react".toList, version := "18.3.1".toList,
      packageQuery := "react@18.3.1".toList, line := 1 }
    (by decide)
  obtain ⟨j, hj, l, hl, hsome⟩ := h
  have hj1 : j < 1 := hj
  have hj0 : j = 0 := by omega
  subst hj0
  simp only [List.get?] at hl
  injection hl with hl
  exact hl ▸ hsome

/-! ## C5: the scan over well-formed documents -/

/-- An abstract manifest section: a key and its "name": "version" entries.
Rendered one entry per line; whether it is scanned is decided solely by
membership of the name in sectionNames. -/
structure RSection where
  name : List Char
  entries : List (List Char × List Char)

def mkHeaderLine (n : List Char) : List Char :=
  ' ' :: ' ' :: '"' :: (n ++ '"' :: ':' :: ' ' :: ['\x7b'])

def mkDepLine (e : List Char × List Char) : List Char :=
  ' ' :: ' ' :: ' ' :: ' ' :: '"' ::
    (e.1 ++ '"' :: ':' :: ' ' :: '"' :: (e.2 ++ '"' :: [',']))

def mkCloseLine : List Char := ' ' :: ' ' :: '\x7d' :: [',']

def renderSec (s : RSection) : List (List Char) :=
  mkHeaderLine s.name :: (s.entries.map mkDepLine ++ [mkCloseLine])

def renderDoc : List RSection → List (List Char)
  | [] => []
  | s :: rest => renderSec s ++ renderDoc rest

/-- Well-formedness of an entry string: nonempty; no quote, no brace. -/
def goodStr (x : List Char) : Prop :=
  x ≠ [] ∧ ∀ c ∈ x, c ≠ '"' ∧ c ≠ '\x7b' ∧ c ≠ '\x7d'

def WFSec (s : RSection) : Prop :=
  (∀ c ∈ s.name, c ≠ '"' ∧ c ≠ '\x7b' ∧ c ≠ '\x7d') ∧
  ∀ e ∈ s.entries, goodStr e.1 ∧ goodStr e.2

/-- The expected entries of one section's body starting at line i. -/
def depsFrom : List (List Char × List Char) → Nat → List DepItem
  | [], _ => []
  | e :: rest, i =>
    { name := e.1, version := e.2, packageQuery := e.1 ++ '@' :: e.2, line := i }
      :: depsFrom rest (i + 1)

def secDeps (s : RSection) (i : Nat) : List DepItem :=
  if s.name ∈ sectionNames then depsFrom s.entries (i + 1) else []

def docDeps : List RSection → Nat → List DepItem
  | [], _ => []
  | s :: rest, i => secDeps s i ++ docDeps rest (i + s.entries.length + 2)

lemma dropWhile_head_false (p : Char → Bool) (l : List Char) (c : Char)
    (r : List Char) (h : l.dropWhile p = c :: r) : p c = false := by
  induction l with
  | nil => simp at h
  | cons a l ih =>
    rw [List.dropWhile_cons] at h
    split at h
    · exact ih h
    · rename_i hp
      injection h with h1 _
      subst h1
      simpa using hp

lemma dropWhile_nil_all (p : Char → Bool) (l : List Char)
    (h : l.dropWhile p = []) : ∀ c ∈ l, p c = true := by
  induction l with
  | nil => simp
  | cons a l ih =>
    rw [List.dropWhile_cons] at h
    split at h
    · rename_i hp
      intro c hc
      rcases List.mem_cons.mp hc with rfl | hc
      · exact hp
      · exact ih h c hc
    · simp at h

lemma sectionName_letters (n : List Char) (h : n ∈ sectionNames) :
    (headerKeyPat n = true) ∧ (∀ c ∈ n, isLetterC c = true) := by
  simp only [sectionNames, List.mem_cons, List.not_mem_nil, or_false] at h
  rcases h with rfl | rfl | rfl | rfl <;> exact ⟨by decide, by decide⟩

lemma headerKeyOf_mkHeaderLine_letters (n : List Char)
    (hq : ∀ c ∈ n, c ≠ '"') (hall : ∀ c ∈ n, isLetterC c = true) :
    headerKeyOf (mkHeaderLine n) =
      (if headerKeyPat n then some n else none) := by
  have h1 : (mkHeaderLine n).dropWhile isWsC =
      '"' :: (n ++ '"' :: ':' :: ' ' :: ['\x7b']) := by
    simp [mkHeaderLine, List.dropWhile_cons, isWsC]
  have h2 : (n ++ '"' :: ':' :: ' ' :: ['\x7b']).takeWhile isLetterC = n := by
    rw [takeWhile_append_all _ _ _ hall]
    simp [List.takeWhile_cons, isLetterC]
  have h3 : (n ++ '"' :: ':' :: ' ' :: ['\x7b']).dropWhile isLetterC =
      '"' :: ':' :: ' ' :: ['\x7b'] := by
    rw [dropWhile_append_all _ _ _ hall]
    simp [List.dropWhile_cons, isLetterC]
  simp only [headerKeyOf, h1, h2, h3]
  rfl

lemma headerOf_mkHeaderLine (n : List Char) (hq : ∀ c ∈ n, c ≠ '"') :
    headerOf (mkHeaderLine n) =
      (if n ∈ sectionNames then some n else none) := by
  by_cases hall : ∀ c ∈ n, isLetterC c = true
  · rw [headerOf, headerKeyOf_mkHeaderLine_letters n hq hall]
    by_cases hmem : n ∈ sectionNames
    · rw [if_pos ((sectionName_letters n hmem).1), if_pos hmem]
      simp [List.elem_iff, hmem]
    · rw [if_neg hmem]
      by_cases hpat : headerKeyPat n = true
      · rw [if_pos hpat]
        simp only []
        rw [if_neg (by simpa [List.elem_iff] using hmem)]
      · rw [if_neg hpat]
  · have hne : n.dropWhile isLetterC ≠ [] := by
      intro hnil
      exact hall (dropWhile_nil_all _ _ hnil)
    cases hd : n.dropWhile isLetterC with
    | nil => exact absurd hd hne
    | cons c r =>
      have hc : isLetterC c = false := dropWhile_head_false _ _ _ _ hd
      have hcq : c ≠ '"' := by
        refine hq c ?_
        have e := List.takeWhile_append_dropWhile (p := isLetterC) (l := n)
        rw [← e]
        exact List.mem_append_right _ (hd ▸ List.mem_cons_self c r)
      have hcat : n ++ '"' :: ':' :: ' ' :: ['\x7b'] =
          n.takeWhile isLetterC ++
            (c :: (r ++ '"' :: ':' :: ' ' :: ['\x7b'])) := by
        conv_lhs => rw [← List.takeWhile_append_dropWhile (p := isLetterC) (l := n)]
        rw [hd]
        simp
      have h1 : (mkHeaderLine n).dropWhile isWsC =
          '"' :: (n ++ '"' :: ':' :: ' ' :: ['\x7b']) := by
        simp [mkHeaderLine, List.dropWhile_cons, isWsC]
      have h3 : (n ++ '"' :: ':' :: ' ' :: ['\x7b']).dropWhile isLetterC =
          c :: (r ++ '"' :: ':' :: ' ' :: ['\x7b']) := by
        rw [hcat, dropWhile_append_all _ _ _
          (fun x hx => List.mem_takeWhile_imp hx)]
        simp [List.dropWhile_cons, hc]
      have hres : headerKeyOf (mkHeaderLine n) = none := by
        simp only [headerKeyOf, h1, h3]
        cases hcc : c <;> simp_all
      rw [headerOf, hres]
      rw [if_neg (fun hmem => hall (sectionName_letters n hmem).2)]

lemma depLineOf_mkDepLine (e : List Char × List Char)
    (h1 : goodStr e.1) (h2 : goodStr e.2) :
    depLineOf (mkDepLine e) = some (e.1, e.2) := by
  obtain ⟨hne1, hch1⟩ := h1
  obtain ⟨hne2, hch2⟩ := h2
  have ha1 : ∀ c ∈ e.1, (fun c => c != '"') c = true := by
    intro c hc
    simpa using (hch1 c hc).1
  have ha2 : ∀ c ∈ e.2, (fun c => c != '"') c = true := by
    intro c hc
    simpa using (hch2 c hc).1
  have s1 : (mkDepLine e).dropWhile isWsC =
      '"' :: (e.1 ++ '"' :: ':' :: ' ' :: '"' :: (e.2 ++ '"' :: [','])) := by
    simp [mkDepLine, List.dropWhile_cons, isWsC]
  have s2 : (e.1 ++ '"' :: ':' :: ' ' :: '"' :: (e.2 ++ '"' :: [','])).takeWhile
      (fun c => c != '"') = e.1 := by
    rw [takeWhile_append_all _ _ _ ha1]
    simp [List.takeWhile_cons]
  have s3 : (e.1 ++ '"' :: ':' :: ' ' :: '"' :: (e.2 ++ '"' :: [','])).dropWhile
      (fun c => c != '"') = '"' :: ':' :: ' ' :: '"' :: (e.2 ++ '"' :: [',']) := by
    rw [dropWhile_append_all _ _ _ ha1]
    simp [List.dropWhile_cons]
  have s4 : (e.2 ++ '"' :: [',']).takeWhile (fun c => c != '"') = e.2 := by
    rw [takeWhile_append_all _ _ _ ha2]
    simp [List.takeWhile_cons]
  have s5 : (e.2 ++ '"' :: [',']).dropWhile (fun c => c != '"') =
      '"' :: [','] := by
    rw [dropWhile_append_all _ _ _ ha2]
    simp [List.dropWhile_cons]
  have s6 : (' ' :: '"' :: (e.2 ++ '"' :: [','])).dropWhile isWsC =
      '"' :: (e.2 ++ '"' :: [',']) := by
    simp [List.dropWhile_cons, isWsC]
  have s7 : (':' :: ' ' :: '"' :: (e.2 ++ '"' :: [','])).dropWhile isWsC =
      ':' :: ' ' :: '"' :: (e.2 ++ '"' :: [',']) := by
    simp [List.dropWhile_cons, isWsC]
  simp only [depLineOf, s1, s2, s3, s4, s5]
  rw [if_neg (by simpa [List.isEmpty_iff] using hne1)]
  simp only [s7, s6, s4, s5]
  rw [if_neg (by simpa [List.isEmpty_iff] using hne2)]

lemma count_eq_zero_of_not_mem' (c : Char) (l : List Char)
    (h : ∀ x ∈ l, x ≠ c) : l.count c = 0 :=
  List.count_eq_zero.mpr (fun hc => (h c hc) rfl)

lemma braceDelta_mkHeaderLine (n : List Char)
    (h : ∀ c ∈ n, c ≠ '\x7b' ∧ c ≠ '\x7d') : braceDelta (mkHeaderLine n) = 1 := by
  have h1 : n.count '\x7b' = 0 :=
    count_eq_zero_of_not_mem' _ _ (fun x hx => (h x hx).1)
  have h2 : n.count '\x7d' = 0 :=
    count_eq_zero_of_not_mem' _ _ (fun x hx => (h x hx).2)
  simp [braceDelta, mkHeaderLine, List.count_cons, List.count_append, h1, h2]

lemma braceDelta_mkDepLine (e : List Char × List Char)
    (h1 : goodStr e.1) (h2 : goodStr e.2) : braceDelta (mkDepLine e) = 0 := by
  have c1 : e.1.count '\x7b' = 0 :=
    count_eq_zero_of_not_mem' _ _ (fun x hx => (h1.2 x hx).2.1)
  have c2 : e.1.count '\x7d' = 0 :=
    count_eq_zero_of_not_mem' _ _ (fun x hx => (h1.2 x hx).2.2)
  have c3 : e.2.count '\x7b' = 0 :=
    count_eq_zero_of_not_mem' _ _ (fun x hx => (h2.2 x hx).2.1)
  have c4 : e.2.count '\x7d' = 0 :=
    count_eq_zero_of_not_mem' _ _ (fun x hx => (h2.2 x hx).2.2)
  simp [braceDelta, mkDepLine, List.count_cons, List.count_append, c1, c2, c3, c4]

lemma braceDelta_mkCloseLine : braceDelta mkCloseLine = -1 := by decide

/-- While outside a section the stored brace depth is never read. -/
lemma scanGo_outside_depth (ls : List (List Char)) (i : Nat) (d1 d2 : Int) :
    scanGo ls i false d1 = scanGo ls i false d2 := by
  induction ls generalizing i d1 d2 with
  | nil => rfl
  | cons l ls ih =>
    rw [scanGo, scanGo]
    cases hh : headerOf l with
    | none => exact ih (i + 1) d1 d2
    | some k => rfl

lemma scanGo_tracked_body (entries : List (List Char × List Char))
    (hWF : ∀ e ∈ entries, goodStr e.1 ∧ goodStr e.2)
    (ls : List (List Char)) (i : Nat) :
    scanGo (entries.map mkDepLine ++ mkCloseLine :: ls) i true 1 =
      depsFrom entries i ++ scanGo ls (i + entries.length + 1) false 0 := by
  induction entries generalizing i with
  | nil =>
    rw [List.map_nil, List.nil_append, scanGo]
    simp [braceDelta_mkCloseLine, depsFrom]
  | cons e rest ih =>
    have hg := hWF e (List.mem_cons_self e rest)
    rw [List.map_cons, List.cons_append, scanGo]
    simp only [braceDelta_mkDepLine e hg.1 hg.2]
    rw [if_neg (by norm_num)]
    rw [depLineOf_mkDepLine e hg.1 hg.2]
    simp only [add_zero]
    rw [ih (fun x hx => hWF x (List.mem_cons_of_mem e hx)) (i + 1)]
    have harith : i + 1 + rest.length + 1 = i + (e :: rest).length + 1 := by
      simp only [List.length_cons]
      omega
    simp [depsFrom, harith]

lemma headerOf_mkCloseLine : headerOf mkCloseLine = none := by decide

lemma scanGo_untracked_body (entries : List (List Char × List Char))
    (hWF : ∀ e ∈ entries, goodStr e.1 ∧ goodStr e.2)
    (ls : List (List Char)) (i : Nat) (d : Int) :
    scanGo (entries.map mkDepLine ++ mkCloseLine :: ls) i false d =
      scanGo ls (i + entries.length + 1) false 0 := by
  induction entries generalizing i d with
  | nil =>
    rw [List.map_nil, List.nil_append, scanGo, headerOf_mkCloseLine]
    exact scanGo_outside_depth ls (i + 1) d 0
  | cons e rest ih =>
    have hg := hWF e (List.mem_cons_self e rest)
    have hrest := fun x hx => hWF x (List.mem_cons_of_mem e hx)
    have harith : i + 1 + rest.length + 1 = i + (e :: rest).length + 1 := by
      simp [List.length_cons]
      omega
    rw [List.map_cons, List.cons_append, scanGo]
    cases hh : headerOf (mkDepLine e) with
    | none =>
      rw [ih hrest (i + 1) d, harith]
    | some k =>
      simp only [braceDelta_mkDepLine e hg.1 hg.2]
      rw [if_pos (by norm_num)]
      rw [ih hrest (i + 1) 0, harith]

lemma scanGo_section (s : RSection) (hWF : WFSec s) (ls : List (List Char))
    (i : Nat) (d : Int) :
    scanGo (renderSec s ++ ls) i false d =
      secDeps s i ++ scanGo ls (i + s.entries.length + 2) false 0 := by
  obtain ⟨hname, hentries⟩ := hWF
  have harith : i + 1 + s.entries.length + 1 = i + s.entries.length + 2 := by omega
  rw [renderSec]
  simp only [List.cons_append, List.append_assoc, List.singleton_append,
    List.nil_append]
  rw [scanGo, headerOf_mkHeaderLine s.name (fun c hc => (hname c hc).1)]
  by_cases hmem : s.name ∈ sectionNames
  · rw [if_pos hmem]
    simp only [braceDelta_mkHeaderLine s.name (fun c hc => (hname c hc).2)]
    rw [if_neg (by norm_num)]
    rw [scanGo_tracked_body s.entries hentries ls (i + 1), harith]
    rw [secDeps, if_pos hmem]
  · rw [if_neg hmem]
    rw [scanGo_untracked_body s.entries hentries ls (i + 1) d, harith]
    rw [secDeps, if_neg hmem]
    simp

lemma scanGo_renderDoc (secs : List RSection) (h : ∀ s ∈ secs, WFSec s) :
    scanGo (renderDoc secs) 0 false 0 = docDeps secs 0 := by
  suffices hgen : ∀ i, scanGo (renderDoc secs) i false 0 = docDeps secs i from hgen 0
  induction secs with
  | nil => intro i; rfl
  | cons s rest ih =>
    intro i
    rw [renderDoc, scanGo_section s (h s (List.mem_cons_self s rest))
      (renderDoc rest) i 0, docDeps]
    rw [ih (fun x hx => h x (List.mem_cons_of_mem s hx)) (i + s.entries.length + 2)]

/-- Join lines with newline separators (inverse of splitLines on texts
without stray newline characters). -/
def joinLines : List (List Char) → List Char
  | [] => []
  | [l] => l
  | l :: ls => l ++ '\n' :: joinLines ls

lemma splitLinesAux_step (c : Char) (rest acc : List Char)
    (hc1 : c ≠ '\n') (hc2 : c ≠ '\r') :
    splitLinesAux (c :: rest) acc = splitLinesAux rest (c :: acc) := by
  rw [splitLinesAux.eq_def]
  split
  · rename_i heq
    exact absurd heq (by simp)
  · rename_i heq
    injection heq with h1 _
    exact absurd h1 hc2
  · rename_i heq
    injection heq with h1 _
    exact absurd h1 hc1
  · rename_i hno1 hno2 heq
    injection heq with h1 h2
    subst h1
    subst h2
    rfl

lemma splitLinesAux_no_nl : ∀ (l acc : List Char), '\n' ∉ l → '\r' ∉ l →
    splitLinesAux l acc = [acc.reverse ++ l]
  | [], acc, _, _ => by simp [splitLinesAux]
  | c :: rest, acc, h1, h2 => by
    have hc1 : c ≠ '\n' := fun hcc => h1 (hcc ▸ List.mem_cons_self _ _)
    have hc2 : c ≠ '\r' := fun hcc => h2 (hcc ▸ List.mem_cons_self _ _)
    rw [splitLinesAux_step c rest acc hc1 hc2,
      splitLinesAux_no_nl rest (c :: acc)
        (fun hm => h1 (List.mem_cons_of_mem c hm))
        (fun hm => h2 (List.mem_cons_of_mem c hm))]
    simp

lemma splitLinesAux_append_nl : ∀ (l rest acc : List Char), '\n' ∉ l →
    '\r' ∉ l →
    splitLinesAux (l ++ '\n' :: rest) acc =
      (acc.reverse ++ l) :: splitLinesAux rest []
  | [], rest, acc, _, _ => by simp [splitLinesAux]
  | c :: l, rest, acc, h1, h2 => by
    have hc1 : c ≠ '\n' := fun hcc => h1 (hcc ▸ List.mem_cons_self _ _)
    have hc2 : c ≠ '\r' := fun hcc => h2 (hcc ▸ List.mem_cons_self _ _)
    rw [List.cons_append, splitLinesAux_step c (l ++ '\n' :: rest) acc hc1 hc2,
      splitLinesAux_append_nl l rest (c :: acc)
        (fun hm => h1 (List.mem_cons_of_mem c hm))
        (fun hm => h2 (List.mem_cons_of_mem c hm))]
    simp

lemma splitLines_joinLines (lines : List (List Char)) (hne : lines ≠ [])
    (h : ∀ l ∈ lines, '\n' ∉ l ∧ '\r' ∉ l) :
    splitLines (joinLines lines) = lines := by
  induction lines with
  | nil => exact absurd rfl hne
  | cons l ls ih =>
    cases ls with
    | nil =>
      have hl := h l (List.mem_cons_self _ _)
      rw [joinLines, splitLines, splitLinesAux_no_nl l [] hl.1 hl.2]
      simp
    | cons l2 ls2 =>
      have hl := h l (List.mem_cons_self _ _)
      have hj : joinLines (l :: l2 :: ls2) = l ++ '\n' :: joinLines (l2 :: ls2) :=
        rfl
      rw [hj, splitLines, splitLinesAux_append_nl l _ [] hl.1 hl.2]
      have hrec := ih (List.cons_ne_nil l2 ls2)
        (fun x hx => h x (List.mem_cons_of_mem l hx))
      rw [splitLines] at hrec
      rw [hrec]
      simp

/-- Well-formedness for text-level rendering: additionally no newline or
carriage-return characters inside names and entries. -/
def WFSecT (s : RSection) : Prop :=
  WFSec s ∧ (∀ c ∈ s.name, c ≠ '\n' ∧ c ≠ '\r') ∧
    ∀ e ∈ s.entries, (∀ c ∈ e.1, c ≠ '\n' ∧ c ≠ '\r') ∧
      (∀ c ∈ e.2, c ≠ '\n' ∧ c ≠ '\r')

instance goodStr_decidable (x : List Char) : Decidable (goodStr x) := by
  unfold goodStr
  infer_instance

instance wfSec_decidable (s : RSection) : Decidable (WFSec s) := by
  unfold WFSec
  infer_instance

instance wfSecT_decidable (s : RSection) : Decidable (WFSecT s) := by
  unfold WFSecT
  infer_instance

lemma renderSec_no_nl (s : RSection) (h : WFSecT s) :
    ∀ l ∈ renderSec s, '\n' ∉ l ∧ '\r' ∉ l := by
  obtain ⟨_, hname, hentries⟩ := h
  intro l hl
  rw [renderSec] at hl
  rcases List.mem_cons.mp hl with rfl | hl
  · constructor
    · intro hm
      simp [mkHeaderLine] at hm
      exact (hname _ hm).1 rfl
    · intro hm
      simp [mkHeaderLine] at hm
      exact (hname _ hm).2 rfl
  · rcases List.mem_append.mp hl with hl | hl
    · obtain ⟨e, he, rfl⟩ := List.mem_map.mp hl
      have hee := hentries e he
      constructor
      · intro hm
        simp [mkDepLine] at hm
        rcases hm with hm | hm
        · exact (hee.1 _ hm).1 rfl
        · exact (hee.2 _ hm).1 rfl
      · intro hm
        simp [mkDepLine] at hm
        rcases hm with hm | hm
        · exact (hee.1 _ hm).2 rfl
        · exact (hee.2 _ hm).2 rfl
    · rcases List.mem_singleton.mp hl with rfl
      exact ⟨by decide, by decide⟩

lemma renderDoc_no_nl (secs : List RSection) (h : ∀ s ∈ secs, WFSecT s) :
    ∀ l ∈ renderDoc secs, '\n' ∉ l ∧ '\r' ∉ l := by
  induction secs with
  | nil => simp [renderDoc]
  | cons s rest ih =>
    intro l hl
    rw [renderDoc] at hl
    rcases List.mem_append.mp hl with hl | hl
    · exact renderSec_no_nl s (h s (List.mem_cons_self _ _)) l hl
    · exact ih (fun x hx => h x (List.mem_cons_of_mem s hx)) l hl

/-- C5: for every well-formed document text rendered from sections in any
order (each dependency declaration on its own line inside its section),
parseDependenciesFromText returns exactly the entries of the four
recognized sections, each with its declared name, raw specifier and
0-based line index; unrelated sections such as scripts contribute
nothing. -/
theorem parse_wellformed_document (secs : List RSection)
    (h : ∀ s ∈ secs, WFSecT s) :
    parseDependenciesFromText (joinLines (renderDoc secs)) = docDeps secs 0 := by
  cases hsecs : secs with
  | nil => decide
  | cons s rest =>
    subst hsecs
    rw [parseDependenciesFromText,
      splitLines_joinLines (renderDoc (s :: rest))
        (by rw [renderDoc, renderSec]; simp)
        (renderDoc_no_nl _ h),
      scanGo_renderDoc _ (fun x hx => (h x hx).1)]

/-- Witness for C5: dependencies and devDependencies sections with a
scripts section interleaved; the scripts entries are not emitted. -/
theorem parse_wellformed_document_witness :
    parseDependenciesFromText (joinLines (renderDoc
      [{ name := "dependencies".toList,
         entries := [("react".toList, "18.3.1".toList),
                     ("vue".toList, "^3.5.0".toList)] },
       { name := "scripts".toList,
         entries := [("build".toList, "tsc".toList)] },
       { name := "devDependencies".toList,
         entries := [("typescript".toList, "5.6.2".toList)] }])) =
      [{ name := "react".toList, version := "18.3.1".toList,
         packageQuery := "react@18.3.1".toList, line := 1 },
       { name := "vue".toList, version := "^3.5.0".toList,
         packageQuery := "vue@^3.5.0".toList, line := 2 },
       { name := "typescript".toList, version := "5.6.2".toList,
         packageQuery := "typescript@5.6.2".toList, line := 8 }] := by
  rw [parse_wellformed_document _ (by decide)]
  decide

/-! ## C9: parseDefaultCatalogFromYaml (src/utils/catalog.ts) -/

/-- line.replace(/#.*$/, ''): everything from the first '#' on is removed. -/
def stripComment (l : List Char) : List Char := l.takeWhile (fun c => c != '#')

def isQuoteC (c : Char) : Bool := c == '"' || c == '\''

/-- stripQuotes from catalog.ts: value.replace(/^['\"]|['\"]$/g, '').  The
global regex removes one leading quote and, from what remains, one
trailing quote. -/
def stripQuotes (v : List Char) : List Char :=
  let v1 := match v with
    | c :: rest => if isQuoteC c then rest else v
    | [] => []
  match v1.reverse with
  | c :: rest => if isQuoteC c then rest.reverse else v1
  | [] => v1

/-- ^(\s*)catalog\s*:\s*$ — returns the captured indentation length. -/
def catalogHeader (line : List Char) : Option Nat :=
  let w := line.takeWhile isWsC
  let r := line.dropWhile isWsC
  if "catalog".toList.isPrefixOf r then
    (match (r.drop 7).dropWhile isWsC with
     | ':' :: r4 => if r4.all isWsC then some w.length else none
     | _ => none)
  else none

/-- The unquoted alternative of the kv regex, [^:\s][^:]*, followed by
\s*: (the greedy [^:]* runs to the first colon, so the \s* is empty) and
a nonempty remainder for the lazy (.+?)\s*$ group. -/
def tryUnquoted (r : List Char) : Option (List Char × List Char) :=
  match r with
  | [] => none
  | c :: r2 =>
    if c = ':' ∨ isWsC c = true then none
    else
      (match r2.dropWhile (fun x => x != ':') with
       | ':' :: tail =>
         if tail = [] then none
         else some (c :: r2.takeWhile (fun x => x != ':'), tail)
       | _ => none)

/-- The quoted alternative ["'][^"']+["'] followed by \s*: and a nonempty
remainder; on any failure the regex backtracks into the unquoted
alternative. -/
def tryQuoted (r : List Char) : Option (List Char × List Char) :=
  match r with
  | [] => none
  | q :: r2 =>
    if isQuoteC q then
      let run := r2.takeWhile (fun c => !(isQuoteC c))
      if run.isEmpty then none
      else
        (match r2.dropWhile (fun c => !(isQuoteC c)) with
         | q2 :: r3 =>
           (match r3.dropWhile isWsC with
            | ':' :: tail =>
              if tail = [] then none else some (q :: (run ++ [q2]), tail)
            | _ => none)
         | [] => none)
    else none

def tryGroup (r : List Char) : Option (List Char × List Char) :=
  match tryQuoted r with
  | some x => some x
  | none => tryUnquoted r

/-- Backtracking of the greedy [\s-]* prefix: retry the unquoted
alternative from each '-' position, rightmost first. -/
def dashGo : List Char → List Char → Option (List Char × List Char)
  | [], _ => none
  | c :: revPre, suffix =>
    match (if c = '-' then tryUnquoted (c :: suffix) else none) with
    | some x => some x
    | none => dashGo revPre (c :: suffix)

/-- The full kv regex ^[\s-]*(["'][^"']+["']|[^:\s][^:]*)\s*:\s*(.+?)\s*$
as (group1, text after the matched colon); group2 is trim of that text
(empty only when the text is all whitespace, in which case the entry is
discarded by the nonempty check downstream). -/
def kvRawMatch (line : List Char) : Option (List Char × List Char) :=
  let a0 := line.takeWhile (fun c => isWsC c || c == '-')
  let r := line.dropWhile (fun c => isWsC c || c == '-')
  match tryGroup r with
  | some x => some x
  | none => dashGo a0.reverse r

/-- One body line of the catalog block: kv match, trim, quote-strip, and
the `if (key && value)` nonemptiness check. -/
def kvEntry (line : List Char) : Option (List Char × List Char) :=
  match kvRawMatch line with
  | none => none
  | some (g1, tail) =>
    let key := stripQuotes (trimC g1)
    let value := stripQuotes (trimC tail)
    if key ≠ [] ∧ value ≠ [] then some (key, value) else none

/-- result[key] = value on a JS object: overwrite in place or append. -/
def upsertA (res : List (List Char × List Char)) (k v : List Char) :
    List (List Char × List Char) :=
  if (lookupA res k).isSome then
    res.map (fun p => if p.1 = k then (k, v) else p)
  else res ++ [(k, v)]

/-- The line loop of parseDefaultCatalogFromYaml. -/
def yamlGo : List (List Char) → Bool → Nat → List (List Char × List Char) →
    List (List Char × List Char)
  | [], _, _, res => res
  | raw :: rest, false, ind, res =>
    (match catalogHeader (stripComment raw) with
     | some n => yamlGo rest true n res
     | none => yamlGo rest false ind res)
  | raw :: rest, true, ind, res =>
    let line := stripComment raw
    if trimC line = [] then yamlGo rest true ind res
    else if (line.takeWhile isWsC).length ≤ ind then res
    else
      (match kvEntry line with
       | some (k, v) => yamlGo rest true ind (upsertA res k v)
       | none => yamlGo rest true ind res)

/-- parseDefaultCatalogFromYaml from src/utils/catalog.ts. -/
def parseDefaultCatalogFromYaml (yamlText : List Char) :
    List (List Char × List Char) :=
  yamlGo (splitLines yamlText) false 0 []

/-- Modelled from the spec's words: locate the first line matching the
catalog header after comment stripping, record its indentation; the
block is the comment-stripped non-blank lines that follow while indented
strictly more than that level, terminated by the first non-blank line at
or below it; each block line is folded as a key: value entry with quotes
stripped. -/
def findCatalogHeader : List (List Char) → Option (Nat × List (List Char))
  | [] => none
  | l :: ls =>
    (match catalogHeader (stripComment l) with
     | some n => some (n, ls)
     | none => findCatalogHeader ls)

def blockLines (n : Nat) : List (List Char) → List (List Char)
  | [] => []
  | l :: ls =>
    let line := stripComment l
    if trimC line = [] then blockLines n ls
    else if (line.takeWhile isWsC).length ≤ n then []
    else line :: blockLines n ls

def specCatalogFromYaml (text : List Char) : List (List Char × List Char) :=
  match findCatalogHeader (splitLines text) with
  | none => []
  | some (n, rest) =>
    (blockLines n rest).foldl (fun res l =>
      match kvEntry l with
      | some (k, v) => upsertA res k v
      | none => res) []

example : parseDefaultCatalogFromYaml
    "catalog:\n  \"@a/x\": \"^1.2.3\"\n  '@a/y': 3.4.5\n  @a/z: ^2.0.0\n".toList =
    [("@a/x".toList, "^1.2.3".toList), ("@a/y".toList, "3.4.5".toList),
     ("@a/z".toList, "^2.0.0".toList)] := by decide

lemma yamlGo_phase1 (lines : List (List Char)) (ind : Nat)
    (res : List (List Char × List Char)) :
    yamlGo lines false ind res =
      (match findCatalogHeader lines with
       | none => res
       | some (n, rest) => yamlGo rest true n res) := by
  induction lines generalizing ind with
  | nil => rfl
  | cons l ls ih =>
    rw [yamlGo, findCatalogHeader]
    cases hh : catalogHeader (stripComment l) with
    | none => exact ih ind
    | some n => rfl

lemma yamlGo_phase2 (lines : List (List Char)) (n : Nat)
    (res : List (List Char × List Char)) :
    yamlGo lines true n res = (blockLines n lines).foldl (fun res l =>
      match kvEntry l with
      | some (k, v) => upsertA res k v
      | none => res) res := by
  induction lines generalizing res with
  | nil => rfl
  | cons l ls ih =>
    rw [yamlGo, blockLines]
    by_cases hb : trimC (stripComment l) = []
    · rw [if_pos hb, if_pos hb, ih res]
    · rw [if_neg hb, if_neg hb]
      by_cases hind : ((stripComment l).takeWhile isWsC).length ≤ n
      · rw [if_pos hind, if_pos hind]
        rfl
      · rw [if_neg hind, if_neg hind]
        cases hk : kvEntry (stripComment l) with
        | none =>
          rw [List.foldl_cons, hk]
          exact ih res
        | some kv =>
          rw [List.foldl_cons, hk]
          exact ih (upsertA res kv.1 kv.2)

/-- C9: the workspace-file catalog parser is a total function and agrees,
on every input text, with the specification-shaped reference that
locates the catalog header, records its indentation, takes the strictly
deeper non-blank lines as the block (blank lines skipped, first
non-blank line at or below the header's indentation terminating it) and
folds each block line as a quote-stripped key: value entry. -/
theorem yaml_catalog_refines (text : List Char) :
    parseDefaultCatalogFromYaml text = specCatalogFromYaml text := by
  rw [parseDefaultCatalogFromYaml, specCatalogFromYaml, yamlGo_phase1]
  cases hh : findCatalogHeader (splitLines text) with
  | none => rfl
  | some nr => exact yamlGo_phase2 nr.2 nr.1 []

/-! ## Size cache coordinator (fetchPackageSizes, extension.ts 224-260)

The coordinator is modelled per packageQuery key as a small-step state
machine over interleaved asynchronous callers.  The atomic steps follow
the await points of the source: a call runs synchronously through cache
check, in-flight check and (on miss) fetch issue + in-flight insert (the
async IIFE runs to its first await); a network response runs the
continuation (validate, cache.set, settle) in one microtask; the finally
callback deletes the in-flight entry after the IIFE settles; each caller
resumes from awaiting the promise after that. -/

structure SizeJson where
  size : Option Int
  gzip : Option Int
  version : Option (List Char)
  dependencyCount : Option Int
deriving DecidableEq

structure CachedSizeInfo where
  text : List Char
  version : Option (List Char) := none
  size : Option Int := none
  gzip : Option Int := none
  dependencyCount : Option Int := none
deriving DecidableEq

/-- The response handling of extension.ts 237-250; render stands for the
formatBytes-based text (floating-point rendering, irrelevant to the
claims, kept opaque). -/
def interpSize (render : Int → Int → List Char) :
    Option SizeJson → CachedSizeInfo
  | none => { text := "error".toList }
  | some j =>
    match j.size, j.gzip with
    | some sz, some gz =>
      { text := render sz gz, version := j.version, size := some sz,
        gzip := some gz, dependencyCount := j.dependencyCount }
    | _, _ => { text := "error".toList }

inductive SPhase where
  | attached
  | done (v : CachedSizeInfo)
deriving DecidableEq

def alookup {β : Type} : List (Nat × β) → Nat → Option β
  | [], _ => none
  | (k, v) :: rest, key => if k = key then some v else alookup rest key

def aset {β : Type} (l : List (Nat × β)) (k : Nat) (v : β) : List (Nat × β) :=
  l.map (fun p => if p.1 = k then (k, v) else p)

structure SizeSt where
  cache : Option CachedSizeInfo
  inFlight : Bool
  outstanding : Bool
  settled : Option CachedSizeInfo
  fetches : Nat
  callers : List (Nat × SPhase)
deriving DecidableEq

def sizeInit : SizeSt :=
  { cache := none, inFlight := false, outstanding := false, settled := none,
    fetches := 0, callers := [] }

inductive SEv where
  | call (c : Nat)
  | respond (j : Option SizeJson)
  | clearInflight
  | resolve (c : Nat)

def sizeStep (render : Int → Int → List Char) (s : SizeSt) :
    SEv → Option SizeSt
  | .call c =>
    if (alookup s.callers c).isSome then none
    else
      (match s.cache with
       | some v => some { s with callers := (c, .done v) :: s.callers }
       | none =>
         if s.inFlight then
           some { s with callers := (c, .attached) :: s.callers }
         else
           some { s with callers := (c, .attached) :: s.callers,
                         inFlight := true, outstanding := true,
                         fetches := s.fetches + 1 })
  | .respond j =>
    if s.outstanding then
      some { s with outstanding := false, cache := some (interpSize render j),
                    settled := some (interpSize render j) }
    else none
  | .clearInflight =>
    if s.inFlight = true ∧ s.settled.isSome then
      some { s with inFlight := false }
    else none
  | .resolve c =>
    (match alookup s.callers c, s.settled, s.inFlight with
     | some .attached, some v, false =>
       some { s with callers := aset s.callers c (.done v) }
     | _, _, _ => none)

def sizeRun (render : Int → Int → List Char) :
    List SEv → SizeSt → Option SizeSt
  | [], s => some s
  | e :: es, s =>
    (match sizeStep render s e with
     | some s' => sizeRun render es s'
     | none => none)

def SizeInv (s : SizeSt) : Prop :=
  s.fetches ≤ 1 ∧
  (s.outstanding = true →
    s.inFlight = true ∧ s.cache = none ∧ s.settled = none) ∧
  (∀ v, s.settled = some v → s.cache = some v) ∧
  (s.cache = none ∧ s.inFlight = false → s.fetches = 0) ∧
  (∀ c v, alookup s.callers c = some (.done v) → s.cache = some v)

lemma alookup_aset_ne {β : Type} (l : List (Nat × β)) (k key : Nat) (v : β)
    (h : key ≠ k) : alookup (aset l k v) key = alookup l key := by
  induction l with
  | nil => rfl
  | cons p rest ih =>
    rw [aset, List.map_cons]
    by_cases hp : p.1 = k
    · rw [if_pos hp, alookup, alookup, if_neg (by omega), if_neg (by omega)]
      exact ih
    · rw [if_neg hp, alookup, alookup]
      by_cases hpk : p.1 = key
      · rw [if_pos hpk, if_pos hpk]
      · rw [if_neg hpk, if_neg hpk]
        exact ih

lemma alookup_aset_eq {β : Type} (l : List (Nat × β)) (k : Nat) (v : β) :
    alookup (aset l k v) k = (alookup l k).map (fun _ => v) := by
  induction l with
  | nil => rfl
  | cons p rest ih =>
    rw [aset, List.map_cons]
    by_cases hp : p.1 = k
    · rw [if_pos hp, alookup, alookup, if_pos rfl, if_pos hp]
      rfl
    · rw [if_neg hp, alookup, alookup, if_neg hp, if_neg hp]
      exact ih

lemma sizeStep_inv (render : Int → Int → List Char) (s s' : SizeSt) (e : SEv)
    (hInv : SizeInv s) (h : sizeStep render s e = some s') : SizeInv s' := by
  obtain ⟨h1, h2, h3, h4, h5⟩ := hInv
  cases e with
  | call c =>
    simp only [sizeStep] at h
    split at h
    · exact absurd h (by simp)
    · rename_i hfresh
      split at h
      · rename_i v hcache
        injection h with h
        subst h
        refine ⟨h1, h2, h3, h4, ?_⟩
        intro c' v' hl
        rw [alookup] at hl
        by_cases hc : c = c'
        · rw [if_pos hc] at hl
          injection hl with hl
          injection hl with hl
          exact hl ▸ hcache
        · rw [if_neg hc] at hl
          exact h5 c' v' hl
      · rename_i hcache
        split at h
        · rename_i hifl
          injection h with h
          subst h
          refine ⟨h1, h2, h3, h4, ?_⟩
          intro c' v' hl
          rw [alookup] at hl
          by_cases hc : c = c'
          · rw [if_pos hc] at hl
            exact absurd hl (by simp)
          · rw [if_neg hc] at hl
            exact h5 c' v' hl
        · rename_i hifl
          injection h with h
          subst h
          have hf0 : s.fetches = 0 := h4 ⟨hcache, by simpa using hifl⟩
          have hsettled : s.settled = none := by
            cases hs : s.settled with
            | none => rfl
            | some v => exact absurd (h3 v hs) (by simp [hcache])
          refine ⟨by simp [hf0], fun _ => ⟨rfl, hcache, hsettled⟩, ?_, ?_, ?_⟩
          · intro v hv
            have hv' : s.settled = some v := hv
            rw [hsettled] at hv'
            exact absurd hv' (by simp)
          · intro hcontra
            exact absurd hcontra.2 (by simp)
          · intro c' v' hl
            rw [alookup] at hl
            by_cases hc : c = c'
            · rw [if_pos hc] at hl
              exact absurd hl (by simp)
            · rw [if_neg hc] at hl
              exact h5 c' v' hl
  | respond j =>
    simp only [sizeStep] at h
    split at h
    · rename_i hout
      injection h with h
      subst h
      obtain ⟨hifl, hcache, hsettled⟩ := h2 hout
      refine ⟨h1, fun hh => Bool.noConfusion hh, ?_, ?_, ?_⟩
      · intro v hv
        simp only [Option.some.injEq] at hv
        simp [hv]
      · intro hcontra
        exact absurd hcontra.1 (by simp)
      · intro c' v' hl
        exact absurd (h5 c' v' hl) (by simp [hcache])
    · exact absurd h (by simp)
  | clearInflight =>
    simp only [sizeStep] at h
    split at h
    · rename_i hcond
      injection h with h
      subst h
      obtain ⟨hifl, hsome⟩ := hcond
      refine ⟨h1, ?_, h3, ?_, h5⟩
      · intro hout
        obtain ⟨_, _, hns⟩ := h2 hout
        rw [hns] at hsome
        exact absurd hsome (by decide)
      · intro hcontra
        have hc1 : s.cache = none := hcontra.1
        obtain ⟨v, hv⟩ := Option.isSome_iff_exists.mp hsome
        rw [h3 v hv] at hc1
        exact absurd hc1 (by simp)
    · exact absurd h (by simp)
  | resolve c =>
    simp only [sizeStep] at h
    split at h
    · rename_i v hl hset hifl
      injection h with h
      subst h
      refine ⟨h1, h2, h3, h4, ?_⟩
      intro c' v' hl'
      by_cases hc : c' = c
      · subst hc
        rw [alookup_aset_eq, hl] at hl'
        simp at hl'
        subst hl'
        exact h3 v hset
      · rw [alookup_aset_ne _ _ _ _ hc] at hl'
        exact h5 c' v' hl'
    · exact absurd h (by simp)

lemma sizeRun_inv (render : Int → Int → List Char) (evs : List SEv)
    (s₀ s : SizeSt) (hInv : SizeInv s₀)
    (h : sizeRun render evs s₀ = some s) : SizeInv s := by
  induction evs generalizing s₀ with
  | nil =>
    simp only [sizeRun] at h
    injection h with h
    exact h ▸ hInv
  | cons e es ih =>
    simp only [sizeRun] at h
    split at h
    · rename_i s₁ hstep
      exact ih s₁ (sizeStep_inv render s₀ s₁ e hInv hstep) h
    · exact absurd h (by simp)

lemma sizeInit_inv : SizeInv sizeInit := by
  refine ⟨by simp [sizeInit], by simp [sizeInit], by simp [sizeInit],
    by simp [sizeInit], by simp [sizeInit, alookup]⟩

/-- C3: across any interleaving of fetchPackageSizes callers for one
packageQuery, at most one outbound request is ever issued; every
completed caller holds the cache's terminal value, so all callers
receive the same value; the settled promise value always equals the
cached one; and a failing response is cached under the terminal error
marker. -/
theorem size_single_fetch_shared_value (render : Int → Int → List Char)
    (evs : List SEv) (s : SizeSt) (h : sizeRun render evs sizeInit = some s) :
    s.fetches ≤ 1 ∧
    (∀ c v, alookup s.callers c = some (.done v) → s.cache = some v) ∧
    (∀ c₁ v₁ c₂ v₂, alookup s.callers c₁ = some (.done v₁) →
      alookup s.callers c₂ = some (.done v₂) → v₁ = v₂) ∧
    (∀ v, s.settled = some v → s.cache = some v) ∧
    (∀ s', sizeStep render s (.respond none) = some s' →
      s'.cache = some { text := "error".toList }) := by
  have hInv := sizeRun_inv render evs sizeInit s sizeInit_inv h
  obtain ⟨h1, h2, h3, h4, h5⟩ := hInv
  refine ⟨h1, h5, ?_, h3, ?_⟩
  · intro c₁ v₁ c₂ v₂ hl₁ hl₂
    have e₁ := h5 c₁ v₁ hl₁
    have e₂ := h5 c₂ v₂ hl₂
    rw [e₁] at e₂
    exact Option.some.inj e₂
  · intro s' hs'
    simp only [sizeStep] at hs'
    split at hs'
    · injection hs' with hs'
      subst hs'
      rfl
    · exact absurd hs' (by simp)

/-- The state reached by one failing fetch, its caller resolving, and a
second caller hitting the cached failure. -/
def sizeFinalW : SizeSt :=
  { cache := some { text := "error".toList }, inFlight := false,
    outstanding := false, settled := some { text := "error".toList },
    fetches := 1,
    callers := [(1, .done { text := "error".toList }),
                (0, .done { text := "error".toList })] }

/-- Witness for C3 at a concrete interleaving with a failing response. -/
theorem size_single_fetch_shared_value_witness :
    sizeFinalW.fetches ≤ 1 ∧
    sizeFinalW.cache = some { text := "error".toList } := by
  have h : sizeRun (fun _ _ => []) [.call 0, .respond none, .clearInflight,
      .resolve 0, .call 1] sizeInit = some sizeFinalW := by decide
  have hthm := size_single_fetch_shared_value (fun _ _ => []) _ _ h
  exact ⟨hthm.1, hthm.2.1 1 _ (by decide)⟩

/-! ## Npm metadata coordinator (getNpmLinks, extension.ts 86-146)

Modelled per key (name@pinned) with an explicit clock (Date.now, in ms,
starting at 1 since the epoch instant 0 is unreachable in practice and
the source's truthiness test `if (lastError && ...)` would treat it as
absent).  A call runs synchronously through cache check, error-timestamp
check, in-flight check and (on miss) fetch issue (a new round) +
in-flight insert.  A response runs the continuation: on failure record
the error timestamp, on success derive the repository url and delete the
timestamp; the finally callback then removes the in-flight entry, after
which the creator caller resumes and only then writes npmMetaCache. -/

inductive RepoField where
  | str (s : List Char)
  | obj (url : Option (List Char))
deriving DecidableEq

structure NpmMeta where
  repository : Option RepoField
  homepage : Option (List Char)
deriving DecidableEq

/-- repoOrHome?.replace(/^git\+/, '') -/
def stripGitPlus (s : List Char) : List Char :=
  if "git+".toList.isPrefixOf s then s.drop 4 else s

/-- .replace(/\.git$/, '') -/
def stripDotGit (s : List Char) : List Char :=
  if ".git".toList.isSuffixOf s then s.take (s.length - 4) else s

/-- (typeof repository === 'string' ? repository : repository?.url) ||
homepage — JS || falls through on the empty string. -/
def repoOrHome (m : NpmMeta) : Option (List Char) :=
  let lhs : Option (List Char) :=
    match m.repository with
    | some (.str s) => some s
    | some (.obj u) => u
    | none => none
  match lhs with
  | some s => if s = [] then m.homepage else some s
  | none => m.homepage

def githubUrlOf (m : NpmMeta) : Option (List Char) :=
  (repoOrHome m).map (fun s => stripDotGit (stripGitPlus s))

structure NpmRound where
  settled : Option (Option (List Char))
deriving DecidableEq

inductive NPhase where
  | attached (r : Nat)
  | creatorWait (r : Nat)
  | done (g : Option (List Char))
deriving DecidableEq

structure NpmSt where
  metaCache : Option (Option (List Char))
  inFl : Option Nat
  errorAt : Option Nat
  now : Nat
  rounds : List NpmRound
  callers : List (Nat × NPhase)
deriving DecidableEq

def backoffMs : Nat := 5 * 60 * 1000

def npmInit : NpmSt :=
  { metaCache := none, inFl := none, errorAt := none, now := 1,
    rounds := [], callers := [] }

inductive NEv where
  | tick (d : Nat)
  | call (c : Nat)
  | respond (r : Nat) (m : Option NpmMeta)
  | clearInflight (r : Nat)
  | resolveAttached (c : Nat)
  | resolveCreator (c : Nat)

/-- Past the cache and error-timestamp checks: attach to the in-flight
round, or start a new fetch round. -/
def npmCallProceed (s : NpmSt) (c : Nat) : NpmSt :=
  match s.inFl with
  | some r => { s with callers := (c, .attached r) :: s.callers }
  | none =>
    { s with rounds := s.rounds ++ [{ settled := none }],
             inFl := some s.rounds.length,
             callers := (c, .creatorWait s.rounds.length) :: s.callers }

def npmStep (s : NpmSt) : NEv → Option NpmSt
  | .tick d => some { s with now := s.now + d }
  | .call c =>
    if (alookup s.callers c).isSome then none
    else
      (match s.metaCache with
       | some g => some { s with callers := (c, .done g) :: s.callers }
       | none =>
         (match s.errorAt with
          | some t =>
            if t ≠ 0 ∧ s.now - t < backoffMs then
              some { s with callers := (c, .done none) :: s.callers }
            else some (npmCallProceed s c)
          | none => some (npmCallProceed s c)))
  | .respond r m =>
    (match s.rounds.get? r with
     | some rd =>
       if rd.settled = none then
         (match m with
          | none =>
            some { s with rounds := s.rounds.set r { settled := some none },
                          errorAt := some s.now }
          | some meta =>
            some { s with
                   rounds := s.rounds.set r
                     { settled := some (githubUrlOf meta) },
                   errorAt := none })
       else none
     | none => none)
  | .clearInflight r =>
    if s.inFl = some r then
      (match s.rounds.get? r with
       | some rd => if rd.settled.isSome then some { s with inFl := none }
         else none
       | none => none)
    else none
  | .resolveAttached c =>
    (match alookup s.callers c with
     | some (.attached r) =>
       (match s.rounds.get? r with
        | some rd =>
          (match rd.settled with
           | some g =>
             if s.inFl = some r then none
             else some { s with callers := aset s.callers c (.done g) }
           | none => none)
        | none => none)
     | _ => none)
  | .resolveCreator c =>
    (match alookup s.callers c with
     | some (.creatorWait r) =>
       (match s.rounds.get? r with
        | some rd =>
          (match rd.settled with
           | some g =>
             if s.inFl = some r then none
             else some { s with metaCache := some g,
                                callers := aset s.callers c (.done g) }
           | none => none)
        | none => none)
     | _ => none)

def npmRun : List NEv → NpmSt → Option NpmSt
  | [], s => some s
  | e :: es, s =>
    (match npmStep s e with
     | some s' => npmRun es s'
     | none => none)

/-- Clock sanity: timestamps are positive and no later than now. -/
def NpmClockInv (s : NpmSt) : Prop :=
  1 ≤ s.now ∧ (∀ t, s.errorAt = some t → 1 ≤ t ∧ t ≤ s.now)

lemma npmStep_clock (s s' : NpmSt) (e : NEv) (hInv : NpmClockInv s)
    (h : npmStep s e = some s') : NpmClockInv s' := by
  obtain ⟨h1, h2⟩ := hInv
  cases e with
  | tick d =>
    injection h with h
    subst h
    refine ⟨?_, ?_⟩
    · show 1 ≤ s.now + d
      omega
    · intro t ht
      have ht' : s.errorAt = some t := ht
      have := h2 t ht'
      show 1 ≤ t ∧ t ≤ s.now + d
      omega
  | call c =>
    simp only [npmStep] at h
    split at h
    · exact absurd h (by simp)
    · split at h
      · injection h with h
        subst h
        exact ⟨h1, h2⟩
      · split at h
        · split at h
          · injection h with h
            subst h
            exact ⟨h1, h2⟩
          · injection h with h
            subst h
            unfold npmCallProceed
            split
            · exact ⟨h1, h2⟩
            · exact ⟨h1, h2⟩
        · injection h with h
          subst h
          unfold npmCallProceed
          split
          · exact ⟨h1, h2⟩
          · exact ⟨h1, h2⟩
  | respond r m =>
    simp only [npmStep] at h
    split at h
    · rename_i rd hrd
      split at h
      · split at h
        · injection h with h
          subst h
          refine ⟨h1, ?_⟩
          intro t ht
          have ht' : some s.now = some t := ht
          injection ht' with ht'
          show 1 ≤ t ∧ t ≤ s.now
          omega
        · injection h with h
          subst h
          refine ⟨h1, ?_⟩
          intro t ht
          exact absurd ht (by simp)
      · exact absurd h (by simp)
    · exact absurd h (by simp)
  | clearInflight r =>
    simp only [npmStep] at h
    split at h
    · split at h
      · rename_i rd hrd
        split at h
        · injection h with h
          subst h
          exact ⟨h1, h2⟩
        · exact absurd h (by simp)
      · exact absurd h (by simp)
    · exact absurd h (by simp)
  | resolveAttached c =>
    simp only [npmStep] at h
    split at h
    · split at h
      · split at h
        · split at h
          · exact absurd h (by simp)
          · injection h with h
            subst h
            exact ⟨h1, h2⟩
        · exact absurd h (by simp)
      · exact absurd h (by simp)
    · exact absurd h (by simp)
  | resolveCreator c =>
    simp only [npmStep] at h
    split at h
    · split at h
      · split at h
        · split at h
          · exact absurd h (by simp)
          · injection h with h
            subst h
            exact ⟨h1, h2⟩
        · exact absurd h (by simp)
      · exact absurd h (by simp)
    · exact absurd h (by simp)

lemma npmRun_clock (evs : List NEv) (s₀ s : NpmSt) (hInv : NpmClockInv s₀)
    (h : npmRun evs s₀ = some s) : NpmClockInv s := by
  induction evs generalizing s₀ with
  | nil =>
    simp only [npmRun] at h
    injection h with h
    exact h ▸ hInv
  | cons e es ih =>
    simp only [npmRun] at h
    split at h
    · rename_i s₁ hstep
      exact ih s₁ (npmStep_clock s₀ s₁ e hInv hstep) h
    · exact absurd h (by simp)

/-- C1 (amended): after a metadata fetch failure for key K (failure
timestamp recorded, no successful link memoized), a getNpmLinks lookup
within the backoff window performs zero network fetches and completes
with no repository URL; and once the failure has been memoized in
npmMetaCache, every later lookup — including the first one after the
window elapses — likewise performs zero fetches and returns no
repository URL, because the cache hit precedes the backoff check and
the cache entry never expires. -/
theorem npm_backoff_no_refetch (evs : List NEv) (s : NpmSt)
    (h : npmRun evs npmInit = some s) :
    (∀ t c s', s.errorAt = some t → s.now - t < backoffMs →
      (s.metaCache = none ∨ s.metaCache = some none) →
      npmStep s (.call c) = some s' →
      s'.rounds = s.rounds ∧ alookup s'.callers c = some (.done none)) ∧
    (∀ c s', s.metaCache = some none → npmStep s (.call c) = some s' →
      s'.rounds = s.rounds ∧ alookup s'.callers c = some (.done none)) := by
  have hclock := npmRun_clock evs npmInit s
    ⟨by simp [npmInit], by simp [npmInit]⟩ h
  constructor
  · intro t c s' ht hw hmc hstep
    have htpos : 1 ≤ t := (hclock.2 t ht).1
    simp only [npmStep] at hstep
    split at hstep
    · exact absurd hstep (by simp)
    · rcases hmc with hmc | hmc
      · rw [hmc, ht] at hstep
        simp only [] at hstep
        rw [if_pos ⟨by omega, hw⟩] at hstep
        injection hstep with hstep
        subst hstep
        refine ⟨rfl, ?_⟩
        rw [alookup, if_pos rfl]
      · rw [hmc] at hstep
        injection hstep with hstep
        subst hstep
        refine ⟨rfl, ?_⟩
        rw [alookup, if_pos rfl]
  · intro c s' hmc hstep
    simp only [npmStep] at hstep
    split at hstep
    · exact absurd hstep (by simp)
    · rw [hmc] at hstep
      injection hstep with hstep
      subst hstep
      refine ⟨rfl, ?_⟩
      rw [alookup, if_pos rfl]

/-- State after a failed metadata fetch, before the in-flight entry is
cleared: failure timestamp 1 recorded. -/
def npmW1 : NpmSt :=
  { metaCache := none, inFl := some 0, errorAt := some 1, now := 1,
    rounds := [{ settled := some none }], callers := [(0, .creatorWait 0)] }

def npmW1' : NpmSt :=
  { metaCache := none, inFl := some 0, errorAt := some 1, now := 1,
    rounds := [{ settled := some none }],
    callers := [(1, .done none), (0, .creatorWait 0)] }

/-- Witness for C1 at a concrete failing run with a lookup inside the
backoff window. -/
theorem npm_backoff_no_refetch_witness :
    npmStep npmW1 (.call 1) = some npmW1' ∧
    npmW1'.rounds = npmW1.rounds ∧
    alookup npmW1'.callers 1 = some (.done none) := by
  have h : npmRun [.call 0, .respond 0 none] npmInit = some npmW1 := by decide
  have hstep : npmStep npmW1 (.call 1) = some npmW1' := by decide
  have hres := (npm_backoff_no_refetch _ _ h).1 1 1 npmW1' (by decide)
    (by decide) (Or.inl (by decide)) hstep
  exact ⟨hstep, hres.1, hres.2⟩

/-- State after a failed fetch, its caller's resolution (memoizing the
failure in npmMetaCache), the full backoff window elapsing, and one
further lookup. -/
def npmCexPost : NpmSt :=
  { metaCache := some none, inFl := none, errorAt := some 1,
    now := 1 + backoffMs, rounds := [{ settled := some none }],
    callers := [(1, .done none), (0, .done none)] }

/-- C1 counterexample: the failure happened at time 1; by time
1 + backoffMs the window has fully elapsed, yet the next lookup
completes against the permanent cache with zero fetches (rounds stays at
one), where the claim requires exactly one new fetch. -/
theorem npm_after_window_no_fetch_cex :
    npmRun [.call 0, .respond 0 none, .clearInflight 0, .resolveCreator 0,
      .tick backoffMs, .call 1] npmInit = some npmCexPost ∧
    backoffMs ≤ npmCexPost.now - 1 ∧
    npmCexPost.rounds.length = 1 ∧
    alookup npmCexPost.callers 1 = some (.done none) := by
  refine ⟨by decide, by decide, by decide, by decide⟩

/-- A successful metadata response carrying a plain repository url. -/
def metaW : NpmMeta :=
  { repository := some (.str "https://github.com/x/y".toList),
    homepage := none }

def npmRaceFinal : NpmSt :=
  { metaCache := none, inFl := some 1, errorAt := none, now := 1,
    rounds := [{ settled := some (some "https://github.com/x/y".toList) },
               { settled := none }],
    callers := [(1, .creatorWait 1), (0, .creatorWait 0)] }

/-- C2 counterexample: in getNpmLinks the in-flight entry is removed (by
the finally callback) before the creator writes npmMetaCache, so a
second caller arriving in that gap sees neither a cache entry nor an
in-flight entry for the already-settled key and issues a redundant
fetch: the first round is settled with its url, the cache is still
empty, and the rounds count has grown to two. -/
theorem npm_inflight_removed_before_cache_cex :
    npmRun [.call 0, .respond 0 (some metaW), .clearInflight 0, .call 1]
      npmInit = some npmRaceFinal ∧
    npmRaceFinal.rounds.get? 0 =
      some { settled := some (some "https://github.com/x/y".toList) } ∧
    npmRaceFinal.metaCache = none ∧
    npmRaceFinal.rounds.length = 2 := by
  refine ⟨by decide, by decide, by decide, by decide⟩

/-- C2 (amended): the claimed ordering invariant holds on the size-cache
path in every interleaving — whenever the in-flight computation for a
key has settled, the permanent cache already holds its value, and at
most one fetch is ever issued for the key.  (The npm-metadata path
removes its in-flight entry before the cache write; see the
counterexample.) -/
theorem size_cache_before_inflight_removal (render : Int → Int → List Char)
    (evs : List SEv) (s : SizeSt) (h : sizeRun render evs sizeInit = some s) :
    (∀ v, s.settled = some v → s.cache = some v) ∧
    (s.inFlight = false → s.settled.isSome → s.cache.isSome) ∧
    s.fetches ≤ 1 := by
  have hInv := sizeRun_inv render evs sizeInit s sizeInit_inv h
  obtain ⟨h1, h2, h3, h4, h5⟩ := hInv
  refine ⟨h3, ?_, h1⟩
  intro _ hsome
  obtain ⟨v, hv⟩ := Option.isSome_iff_exists.mp hsome
  rw [h3 v hv]
  simp

/-- The rendered value of one successful size fetch. -/
def sizeValW2 : CachedSizeInfo :=
  { text := [], version := none, size := some 9, gzip := some 3, dependencyCount := none }

/-- The state after one successful size fetch and the caller settling. -/
def sizeFinalW2 : SizeSt :=
  { cache := some sizeValW2, inFlight := false, outstanding := false,
    settled := some sizeValW2, fetches := 1, callers := [(0, .done sizeValW2)] }

def sizeJsonW2 : SizeJson :=
  { size := some 9, gzip := some 3, version := none, dependencyCount := none }

/-- Witness for C2 at a concrete successful run. -/
theorem size_cache_before_inflight_removal_witness :
    sizeFinalW2.cache = some sizeValW2 ∧ sizeFinalW2.fetches ≤ 1 := by
  have h : sizeRun (fun _ _ => []) [.call 0, .respond (some sizeJsonW2),
      .clearInflight, .resolve 0] sizeInit = some sizeFinalW2 := by decide
  have hthm := size_cache_before_inflight_removal (fun _ _ => []) _ _ h
  exact ⟨hthm.1 _ (by decide), hthm.2.2⟩
